import Mathlib

/-!
Verification development for `LearnNotes/gupiao/zt_filter_strategy.py`.

The script filters a pandas DataFrame of limit-up stocks.  We shallowly embed
the tabular data model and the `filter_stocks` routine: a DataFrame is a list
of column labels together with index-labelled rows of cells; a cell is a
rational number, a string, or the null/NaN marker.  Machine floats of the
source are modelled as exact rationals (all constants involved — 30, 200, 3,
4, 1, 1000, 1e8 — and the test data are exactly representable).  Pandas
multi-key `sort_values` is a stable lexicographic sort (numpy lexsort), and a
stable sort result is unique, so it is embedded as `List.insertionSort` with
the lexicographic comparator.  Strings are processed on their character lists
so that every definition evaluates by kernel reduction.
-/

/-! ## Definitions: the embedded data model and program -/

/-- A cell of a pandas DataFrame: a (finite) numeric value, a string, or the
null/NaN marker.  NaN cells are represented by `null`. -/
inductive Cell where
  | num (q : ℚ)
  | str (s : String)
  | null
deriving DecidableEq, Repr

/-- Model of Python `str.strip()`: drop whitespace from both ends. -/
def trimChars (cs : List Char) : List Char :=
  ((cs.dropWhile Char.isWhitespace).reverse.dropWhile Char.isWhitespace).reverse

/-- Model of Python `str.split(sep)` for a one-character separator, on
character lists; `acc` holds the current segment reversed. -/
def splitOnCharAux (sep : Char) : List Char → List Char → List (List Char)
  | [], acc => [acc.reverse]
  | c :: cs, acc =>
      if c = sep then acc.reverse :: splitOnCharAux sep cs []
      else splitOnCharAux sep cs (c :: acc)

/-- Model of Python `str.split(sep)` for a one-character separator. -/
def splitOnChar (sep : Char) (cs : List Char) : List (List Char) :=
  splitOnCharAux sep cs []

/-- Digits of a decimal literal folded to a natural number. -/
def digitsToNat (cs : List Char) : ℕ :=
  cs.foldl (fun a c => a * 10 + (c.toNat - 48)) 0

/-- Parse a nonempty all-digit character list. -/
def parseNatDigits (cs : List Char) : Option ℕ :=
  if cs ≠ [] ∧ cs.all (fun c => c.isDigit) then some (digitsToNat cs) else none

/-- Strip one optional leading sign, returning the sign and the rest. -/
def parseSign : List Char → Int × List Char
  | '-' :: rest => (-1, rest)
  | '+' :: rest => (1, rest)
  | cs => (1, cs)

/-- Model of Python `int(s)` on a string (as characters): optional
surrounding whitespace, an optional sign, then decimal digits.  (Underscore
digit grouping and non-ASCII digits, which CPython also accepts, are outside
the model.) -/
def parsePyIntChars (cs : List Char) : Option Int :=
  let p := parseSign (trimChars cs)
  (parseNatDigits p.2).map (fun n => p.1 * n)

/-- Mantissa of a decimal float literal: `digits`, `digits.digits`,
`digits.` or `.digits`; returns the digits read as a scaled integer (the
value is `m / 10 ^ k`), the scale `k` (number of fractional digits), and the
unconsumed rest. -/
def parseMantissa (cs : List Char) : Option (Int × ℕ × List Char) :=
  let ip := cs.takeWhile (fun c => c.isDigit)
  let rest := cs.dropWhile (fun c => c.isDigit)
  match rest with
  | '.' :: rest2 =>
      let fp := rest2.takeWhile (fun c => c.isDigit)
      let rest3 := rest2.dropWhile (fun c => c.isDigit)
      if ip.isEmpty && fp.isEmpty then none
      else some ((digitsToNat (ip ++ fp) : Int), fp.length, rest3)
  | _ => if ip.isEmpty then none else some ((digitsToNat ip : Int), 0, rest)

/-- Exponent part of a float literal (empty, or `e`/`E`, sign, digits). -/
def parseExpPart : List Char → Option Int
  | [] => some 0
  | c :: rest =>
      if c = 'e' ∨ c = 'E' then
        let p := parseSign rest
        (parseNatDigits p.2).map (fun n => p.1 * n)
      else none

/-- The exact rational value `m * 10 ^ e` of a scaled decimal integer. -/
def ratOfScaled (m : Int) (e : Int) : ℚ :=
  if 0 ≤ e then ((m * 10 ^ e.toNat : Int) : ℚ)
  else mkRat m (10 ^ (-e).toNat)

/-- Model of Python `float(s)` / the numeric parsing of `pandas.to_numeric`
for strings: optional whitespace and sign, decimal mantissa, optional
exponent.  The value is exact (rational).  The special spellings
`inf`/`infinity`/`nan`, which denote non-finite floats, are outside the
model (they are numeric, not coercion failures, and no finite threshold
comparison of the script is satisfied by them). -/
def parsePyFloatChars (cs : List Char) : Option ℚ :=
  let p := parseSign (trimChars cs)
  match parseMantissa p.2 with
  | some (m, k, rest) => (parseExpPart rest).map (fun e => ratOfScaled (p.1 * m) (e - (k : Int)))
  | none => none

/-- Python `int` truncation toward zero of an exact float value: the
numerator divided by the (positive) denominator, rounding toward zero. -/
def ratTrunc (q : ℚ) : Int :=
  q.num.tdiv (q.den : Int)

/-- Embedding of `extract_half_year_times` (zt_filter_strategy.py lines 79-92):
null input gives 0; a string containing a slash is split and the second part
is read with `int`; otherwise `int(float(x))`; every parse failure is caught
by the bare `except` and gives 0. -/
def extract_half_year_times (x : Cell) : Int :=
  match x with
  | Cell.null => 0
  | Cell.str s =>
      if s.data.contains '/' then
        let parts := splitOnChar '/' s.data
        if parts.length ≥ 2 then
          match parsePyIntChars (parts.getD 1 []) with
          | some n => n
          | none => 0
        else
          match parsePyFloatChars s.data with
          | some q => ratTrunc q
          | none => 0
      else
        match parsePyFloatChars s.data with
        | some q => ratTrunc q
        | none => 0
  | Cell.num q => ratTrunc q

/-- A pandas DataFrame: column labels, and rows carrying their index label
and one cell per column (positionally).  Well-formedness (`DataFrame.WF`)
captures what pandas guarantees: distinct column labels and rectangular
rows. -/
structure DataFrame where
  cols : List String
  rows : List (ℕ × List Cell)
deriving DecidableEq, Repr

/-- Pandas invariants of a real DataFrame: column labels are distinct and
every row has exactly one cell per column. -/
def DataFrame.WF (df : DataFrame) : Prop :=
  df.cols.Nodup ∧ ∀ r ∈ df.rows, r.2.length = df.cols.length

instance (df : DataFrame) : Decidable df.WF := by
  unfold DataFrame.WF; infer_instance

/-- Position of a column label in the label list (its length if absent). -/
def colIdx : List String → String → ℕ
  | [], _ => 0
  | c :: cs, d => if c = d then 0 else colIdx cs d + 1

/-- The cell of a row at a named column (null if the column is absent). -/
def getCell (cols : List String) (r : List Cell) (c : String) : Cell :=
  r.getD (colIdx cols c) Cell.null

/-- `df.empty`: true when either axis has length 0. -/
def DataFrame.empty (df : DataFrame) : Bool :=
  df.rows.isEmpty || df.cols.isEmpty

/-- The sequence of cells of one named column (pandas `df[c]`). -/
def DataFrame.getCol (df : DataFrame) (c : String) : List Cell :=
  df.rows.map (fun ir => getCell df.cols ir.2 c)

/-- Column assignment `df[c] = vs`: overwrite the column if the label
exists, else append it on the right (pandas semantics). -/
def DataFrame.setCol (df : DataFrame) (c : String) (vs : List Cell) : DataFrame :=
  if c ∈ df.cols then
    ⟨df.cols, (df.rows.zip vs).map (fun p => (p.1.1, p.1.2.set (colIdx df.cols c) p.2))⟩
  else
    ⟨df.cols ++ [c], (df.rows.zip vs).map (fun p => (p.1.1, p.1.2 ++ [p.2]))⟩

/-- Cell-wise update of one named column, `df[c] = f(df[c])`. -/
def DataFrame.mapCol (df : DataFrame) (c : String) (f : Cell → Cell) : DataFrame :=
  ⟨df.cols,
   df.rows.map (fun ir =>
     (ir.1, ir.2.set (colIdx df.cols c) (f (ir.2.getD (colIdx df.cols c) Cell.null))))⟩

/-- Boolean-mask row filtering `df[mask]` (row order and labels kept). -/
def DataFrame.filterRows (df : DataFrame) (p : List Cell → Bool) : DataFrame :=
  ⟨df.cols, df.rows.filter (fun ir => p ir.2)⟩

/-- Column projection `df[[c1, ..., ck]]` (a fresh table). -/
def DataFrame.select (df : DataFrame) (cs : List String) : DataFrame :=
  ⟨cs, df.rows.map (fun ir => (ir.1, cs.map (getCell df.cols ir.2)))⟩

/-- Apply a rename mapping to one label: first matching key wins, absent
keys leave the label unchanged. -/
def applyRename : List (String × String) → String → String
  | [], c => c
  | (k, v) :: m, c => if k = c then v else applyRename m c

/-- `df.rename(columns=m)`: relabel columns, cells untouched. -/
def DataFrame.renameCols (df : DataFrame) (m : List (String × String)) : DataFrame :=
  ⟨df.cols.map (applyRename m), df.rows⟩

/-- `df.reset_index(drop=True)`: relabel rows 0,1,2,... in order. -/
def DataFrame.resetIndex (df : DataFrame) : DataFrame :=
  ⟨df.cols, df.rows.enum.map (fun p => (p.1, p.2.2))⟩

/-- Cell-wise `pd.to_numeric(s, errors="coerce")`: numbers kept, nulls
kept, strings parsed as numbers or coerced to the null marker. -/
def toNumericCell : Cell → Cell
  | Cell.num q => Cell.num q
  | Cell.null => Cell.null
  | Cell.str s =>
      match parsePyFloatChars s.data with
      | some q => Cell.num q
      | none => Cell.null

/-- `series < b`: false on the null marker (NaN comparisons are false). -/
def cellLt (x : Cell) (b : ℚ) : Bool :=
  match x with
  | Cell.num q => decide (q < b)
  | _ => false

/-- `series >= b`: false on the null marker. -/
def cellGe (x : Cell) (b : ℚ) : Bool :=
  match x with
  | Cell.num q => decide (b ≤ q)
  | _ => false

/-- `series == b`: false on the null marker. -/
def cellEq (x : Cell) (b : ℚ) : Bool :=
  match x with
  | Cell.num q => decide (q = b)
  | _ => false

/-- `series / 1e8` on one cell (only numeric cells are scaled). -/
def divE8Cell : Cell → Cell
  | Cell.num q => Cell.num (q / 100000000)
  | x => x

/-- Skip-NaN maximum of a column (`series.max()`); none when no numeric
value is present (the all-NaN / empty case, where pandas returns NaN). -/
def colMax (cells : List Cell) : Option ℚ :=
  cells.foldl
    (fun acc c =>
      match c with
      | Cell.num q =>
          match acc with
          | some m => some (max m q)
          | none => some q
      | _ => acc)
    none

/-- The numeric value of a sort-key cell; none models a NaN key. -/
def cellKey : Cell → Option ℚ
  | Cell.num q => some q
  | _ => none

/-- One-key comparison: NaN last on both orientations; otherwise the
numeric order (`asc = false` flips it). -/
def okLe (asc : Bool) : Option ℚ → Option ℚ → Bool
  | none, none => true
  | none, some _ => false
  | some _, none => true
  | some x, some y => if asc then decide (x ≤ y) else decide (y ≤ x)

/-- The three sort keys of a row of the renamed output table. -/
def keyOf (cols : List String) (r : List Cell) : Option ℚ × Option ℚ × Option ℚ :=
  (cellKey (getCell cols r "近半年涨停次数"),
   cellKey (getCell cols r "连板数"),
   cellKey (getCell cols r "总市值(亿)"))

/-- Lexicographic comparison of key triples: count descending, then streak
descending, then market cap ascending. -/
def keyLe (a b : Option ℚ × Option ℚ × Option ℚ) : Bool :=
  if a.1 = b.1 then
    if a.2.1 = b.2.1 then okLe true a.2.2 b.2.2
    else okLe false a.2.1 b.2.1
  else okLe false a.1 b.1

/-- Row comparison used by the sort (reads only the cells). -/
def rowLeProp (cols : List String) (r s : ℕ × List Cell) : Prop :=
  keyLe (keyOf cols r.2) (keyOf cols s.2) = true

instance (cols : List String) : DecidableRel (rowLeProp cols) :=
  fun _ _ => inferInstanceAs (Decidable (_ = true))

/-- `df.sort_values(by=[...], ascending=[False, False, True])`: the stable
sort of the rows by `keyLe` (index labels travel with their rows). -/
def DataFrame.sortStep (df : DataFrame) : DataFrame :=
  ⟨df.cols, List.insertionSort (rowLeProp df.cols) df.rows⟩

def col_code : String := "代码"

def col_name : String := "名称"

/-- Candidate labels for the price field (zt_filter_strategy.py line 60). -/
def price_cols : List String := ["最新价", "现价", "收盘价"]

/-- Candidate labels for the market-cap field (line 64). -/
def mktcap_cols : List String := ["总市值", "总市值(亿)", "总市值-亿"]

/-- Candidate labels for the consecutive-limit-days field (line 68). -/
def lianban_cols : List String := ["连续涨停天数", "连板数", "连板次数"]

/-- Candidate labels for the half-year-count field (line 72). -/
def times_cols : List String := ["涨停统计", "半年涨停次数", "近半年涨停次数"]

/-- Label of the parsed half-year-count column added at line 90. -/
def parsedTimesCol : String := "近半年涨停次数_解析"

/-- `next((c for c in cands if c in data.columns), None)`. -/
def resolveCol (cols : List String) (cands : List String) : Option String :=
  cands.find? (fun c => decide (c ∈ cols))

/-- Lines 73-91: resolve the half-year-count field; when it resolves to the
composite `涨停统计` column, parse that column with
`extract_half_year_times` into a new column and use the new column. -/
def timesStep (data : DataFrame) : DataFrame × Option String :=
  match resolveCol data.cols times_cols with
  | some c =>
      if c = "涨停统计" then
        (data.setCol parsedTimesCol
           ((data.getCol "涨停统计").map (fun x => Cell.num (extract_half_year_times x))),
         some parsedTimesCol)
      else (data, some c)
  | none => (data, none)

/-- Lines 109-112: `pd.to_numeric(..., errors="coerce")` on the four
resolved columns. -/
def numStep (data : DataFrame) (cp cm cl ct : String) : DataFrame :=
  (((data.mapCol cp toNumericCell).mapCol cm toNumericCell).mapCol
      cl toNumericCell).mapCol ct toNumericCell

/-- Lines 114-118: if the column maximum exceeds 1000 the market cap is in
yuan; divide the whole column by 1e8. -/
def normStep (data : DataFrame) (cm : String) : DataFrame :=
  match colMax (data.getCol cm) with
  | some m => if m > 1000 then data.mapCol cm divE8Cell else data
  | none => data

/-- Lines 120-127: the five filter conditions, conjoined.  (The
`if col else all-True` fallbacks of lines 120-124 are unreachable: when any
of the four fields is unresolved the function has already returned at line
107, so in this branch all four columns are present.) -/
def condAll (cols : List String) (cp cm cl ct : String) (r : List Cell) : Bool :=
  cellLt (getCell cols r cp) 30 && cellLt (getCell cols r cm) 200 &&
  cellGe (getCell cols r ct) 3 && cellLt (getCell cols r cl) 4 &&
  cellEq (getCell cols r cl) 1

/-- Lines 130-139: the columns kept in the output, in order. -/
def keepCols (cp cm cl ct : String) : List String :=
  [col_code, col_name, cp, cm, cl, ct]

/-- Lines 143-156: the display-label rename mapping. -/
def renameMap (cp cm cl ct : String) : List (String × String) :=
  [(col_code, "代码"), (col_name, "名称"), (cp, "最新价"), (cm, "总市值(亿)"),
   (cl, "连板数"), (ct, "近半年涨停次数")]

/-- The display labels of the full-branch output table. -/
def displayCols : List String :=
  ["代码", "名称", "最新价", "总市值(亿)", "连板数", "近半年涨停次数"]

/-- Numeric conversion followed by unit normalization (lines 109-118). -/
def prepAll (data : DataFrame) (cp cm cl ct : String) : DataFrame :=
  normStep (numStep data cp cm cl ct) cm

/-- Lines 120-156: filter by the five conditions, project to the kept
columns, rename to the display labels. -/
def selectedTable (data : DataFrame) (cp cm cl ct : String) : DataFrame :=
  ((((prepAll data cp cm cl ct).filterRows
        (condAll (prepAll data cp cm cl ct).cols cp cm cl ct)).select
      (keepCols cp cm cl ct)).renameCols (renameMap cp cm cl ct))

/-- Lines 109-166, the branch where all four fields resolved: convert,
normalize, filter, project, rename, sort, reset the index. -/
def filter_full (data : DataFrame) (cp cm cl ct : String) : DataFrame :=
  ((selectedTable data cp cm cl ct).sortStep).resetIndex

/-- Lines 101-107, the branch where some field is unresolved: report and
return only the code and name columns (or the table itself when even those
are absent). -/
def fallback (data : DataFrame) : DataFrame :=
  if col_code ∈ data.cols ∧ col_name ∈ data.cols then data.select [col_code, col_name]
  else data

/-- Embedding of `filter_stocks` (zt_filter_strategy.py lines 46-166).
`data = df.copy()` gives the routine its own value; the copy and all
in-place mutations of it are modelled by the pure pipeline (the heap-level
aliasing of the original is treated separately by `filter_stocks_heap`). -/
def filter_stocks (df : DataFrame) : DataFrame :=
  if df.empty then df
  else
    match resolveCol df.cols price_cols, resolveCol df.cols mktcap_cols,
          resolveCol df.cols lianban_cols, (timesStep df).2 with
    | some cp, some cm, some cl, some ct => filter_full (timesStep df).1 cp cm cl ct
    | _, _, _, _ => fallback (timesStep df).1

/-- The five conditions of the script, read off a row of the output table
at the display labels. -/
def rowMeets (r : List Cell) : Prop :=
  cellLt (getCell displayCols r "最新价") 30 = true ∧
  cellLt (getCell displayCols r "总市值(亿)") 200 = true ∧
  cellGe (getCell displayCols r "近半年涨停次数") 3 = true ∧
  cellLt (getCell displayCols r "连板数") 4 = true ∧
  cellEq (getCell displayCols r "连板数") 1 = true

instance (r : List Cell) : Decidable (rowMeets r) := by
  unfold rowMeets; infer_instance

/-- Concrete witness table: row 0 and row 2 satisfy all five conditions,
row 1 fails the price threshold. -/
def exTable : DataFrame :=
  ⟨["代码", "名称", "最新价", "总市值", "连续涨停天数", "涨停统计"],
   [(0, [Cell.str "000001", Cell.str "甲", Cell.num 10, Cell.num 50, Cell.num 1, Cell.str "5/3"]),
    (1, [Cell.str "000002", Cell.str "乙", Cell.num 50, Cell.num 60, Cell.num 1, Cell.str "6/4"]),
    (2, [Cell.str "000003", Cell.str "丙", Cell.num 12, Cell.num 30, Cell.num 1, Cell.str "9/5"])]⟩

/-- Witness table for coercion: row 0 has an unparseable price cell. -/
def exC7 : DataFrame :=
  ⟨["代码", "名称", "最新价", "总市值", "连续涨停天数", "涨停统计"],
   [(0, [Cell.str "000001", Cell.str "甲", Cell.str "abc", Cell.num 50, Cell.num 1, Cell.str "5/3"]),
    (1, [Cell.str "000003", Cell.str "丙", Cell.num 12, Cell.num 30, Cell.num 1, Cell.str "9/5"])]⟩

/-- The five-condition conjunction with `consecutive_limit_days < 4`
omitted (the spec-described variant of lines 120-127). -/
def condAllVariant (cols : List String) (cp cm cl ct : String) (r : List Cell) : Bool :=
  cellLt (getCell cols r cp) 30 && cellLt (getCell cols r cm) 200 &&
  cellGe (getCell cols r ct) 3 && cellEq (getCell cols r cl) 1

/-- `selectedTable` with the variant condition. -/
def selectedTableVariant (data : DataFrame) (cp cm cl ct : String) : DataFrame :=
  ((((prepAll data cp cm cl ct).filterRows
        (condAllVariant (prepAll data cp cm cl ct).cols cp cm cl ct)).select
      (keepCols cp cm cl ct)).renameCols (renameMap cp cm cl ct))

/-- `filter_full` with the variant condition. -/
def filter_fullVariant (data : DataFrame) (cp cm cl ct : String) : DataFrame :=
  ((selectedTableVariant data cp cm cl ct).sortStep).resetIndex

/-- `filter_stocks` with the variant condition; all other code identical. -/
def filter_stocks_variant (df : DataFrame) : DataFrame :=
  if df.empty then df
  else
    match resolveCol df.cols price_cols, resolveCol df.cols mktcap_cols,
          resolveCol df.cols lianban_cols, (timesStep df).2 with
    | some cp, some cm, some cl, some ct => filter_fullVariant (timesStep df).1 cp cm cl ct
    | _, _, _, _ => fallback (timesStep df).1

/-- Witness table for the missing-field branch: no market-cap candidate
column, one row failing the price threshold. -/
def exC5 : DataFrame :=
  ⟨["代码", "名称", "最新价", "连板数", "近半年涨停次数"],
   [(0, [Cell.str "000001", Cell.str "甲", Cell.num 10, Cell.num 1, Cell.num 5]),
    (1, [Cell.str "000002", Cell.str "乙", Cell.num 50, Cell.num 1, Cell.num 4])]⟩

/-- Concrete normalizer input already in hundred-million-yuan units. -/
def exCapA : DataFrame :=
  ⟨["总市值"], [(0, [Cell.num 50]), (1, [Cell.num 80]), (2, [Cell.num 120])]⟩

/-- Concrete normalizer input in yuan units. -/
def exCapY : DataFrame :=
  ⟨["总市值"], [(0, [Cell.num 5000000000]), (1, [Cell.num 8000000000])]⟩

def emptyFrame : DataFrame := ⟨[], []⟩

/-- Heap-level embedding of `filter_stocks`: objects live in a heap indexed
by address, Python variables hold addresses.  `df.copy()` (line 54) and
`data[mask].copy()` (line 129) allocate, `data[c] = ...` (lines 90,
111-112, 118) and the `inplace=True` calls (`rename` line 156,
`sort_values` lines 159-163, `reset_index` line 165) write to the object
their variable points at; `data[[...]]` / `filtered[keep_cols]` build new
objects.  Returns the final heap and the address of the returned table. -/
def filter_stocks_heap (h : List DataFrame) (a : ℕ) : List DataFrame × ℕ :=
  let df := h.getD a emptyFrame
  if df.empty then (h, a)
  else
    let dAddr := h.length
    let h1 := h ++ [df]
    let h2 := h1.set dAddr (timesStep (h1.getD dAddr emptyFrame)).1
    match resolveCol df.cols price_cols, resolveCol df.cols mktcap_cols,
          resolveCol df.cols lianban_cols, (timesStep df).2 with
    | some cp, some cm, some cl, some ct =>
        let h3 := h2.set dAddr (numStep (h2.getD dAddr emptyFrame) cp cm cl ct)
        let h4 := h3.set dAddr (normStep (h3.getD dAddr emptyFrame) cm)
        let fAddr := h4.length
        let h5 := h4 ++ [(h4.getD dAddr emptyFrame).filterRows
            (condAll (h4.getD dAddr emptyFrame).cols cp cm cl ct)]
        let f2Addr := h5.length
        let h6 := h5 ++ [(h5.getD fAddr emptyFrame).select (keepCols cp cm cl ct)]
        let h7 := h6.set f2Addr ((h6.getD f2Addr emptyFrame).renameCols (renameMap cp cm cl ct))
        let h8 := h7.set f2Addr ((h7.getD f2Addr emptyFrame).sortStep)
        let h9 := h8.set f2Addr ((h8.getD f2Addr emptyFrame).resetIndex)
        (h9, f2Addr)
    | _, _, _, _ =>
        let data := h2.getD dAddr emptyFrame
        if col_code ∈ data.cols ∧ col_name ∈ data.cols then
          (h2 ++ [data.select [col_code, col_name]], h2.length)
        else (h2, dAddr)

/-! ## Theorems -/

example : extract_half_year_times (Cell.str "5/3") = 3 := by decide

example : extract_half_year_times (Cell.str "7") = 7 := by decide

example : extract_half_year_times Cell.null = 0 := by decide

example : extract_half_year_times (Cell.str "abc") = 0 := by decide

example : extract_half_year_times (Cell.str "2/x") = 0 := by decide

example : extract_half_year_times (Cell.num (mkRat 7 2)) = 3 := by decide

example : extract_half_year_times (Cell.str " -12 ") = -12 := by decide

example : parsePyFloatChars "3.5".data = some (mkRat 7 2) := by decide

example : (parsePyFloatChars "5e9".data).map (fun q => decide (q < 200)) = some false := by decide

theorem colIdx_lt_length {cols : List String} {c : String} (h : c ∈ cols) :
    colIdx cols c < cols.length := by
  induction cols with
  | nil => cases h
  | cons a as ih =>
      by_cases hac : a = c
      · simp [colIdx, hac]
      · have hmem : c ∈ as := by
          rcases List.mem_cons.mp h with h1 | h1
          · exact absurd h1.symm hac
          · exact h1
        simp only [colIdx, if_neg hac, List.length_cons]
        exact Nat.succ_lt_succ (ih hmem)

theorem colIdx_eq_length {cols : List String} {c : String} (h : c ∉ cols) :
    colIdx cols c = cols.length := by
  induction cols with
  | nil => rfl
  | cons a as ih =>
      have hac : a ≠ c := fun e => h (e ▸ List.mem_cons_self a as)
      have : c ∉ as := fun hm => h (List.mem_cons_of_mem a hm)
      simp [colIdx, hac, ih this]

theorem colIdx_append_left {l₁ l₂ : List String} {c : String} (h : c ∈ l₁) :
    colIdx (l₁ ++ l₂) c = colIdx l₁ c := by
  induction l₁ with
  | nil => cases h
  | cons a as ih =>
      by_cases hac : a = c
      · simp [colIdx, hac]
      · have hmem : c ∈ as := by
          rcases List.mem_cons.mp h with h1 | h1
          · exact absurd h1.symm hac
          · exact h1
        simp [colIdx, hac, ih hmem]

theorem colIdx_getElem {cols : List String} (hnd : cols.Nodup) {j : ℕ}
    (hj : j < cols.length) : colIdx cols cols[j] = j := by
  induction cols generalizing j with
  | nil => cases hj
  | cons a as ih =>
      cases j with
      | zero => simp [colIdx]
      | succ n =>
          have hn : n < as.length := Nat.lt_of_succ_lt_succ hj
          have hmem : as[n] ∈ as := List.getElem_mem hn
          have hane : a ≠ as[n] := fun e => (List.nodup_cons.mp hnd).1 (e ▸ hmem)
          have hcons : (a :: as)[n + 1] = as[n] := by simp
          rw [hcons, colIdx, if_neg hane, ih (List.nodup_cons.mp hnd).2 hn]

theorem getElem?_colIdx {cols : List String} {c : String} (h : c ∈ cols) :
    cols[colIdx cols c]? = some c := by
  induction cols with
  | nil => cases h
  | cons a as ih =>
      by_cases hac : a = c
      · simp [colIdx, hac]
      · have hmem : c ∈ as := by
          rcases List.mem_cons.mp h with h1 | h1
          · exact absurd h1.symm hac
          · exact h1
        simpa [colIdx, hac] using ih hmem

theorem getD_set_ne {α : Type} {l : List α} {i j : ℕ} (h : i ≠ j) (v d : α) :
    (l.set i v).getD j d = l.getD j d := by
  simp [List.getD_eq_getElem?_getD, List.getElem?_set_ne h]

theorem set_getD_self {α : Type} (l : List α) (i : ℕ) (d : α) :
    l.set i (l.getD i d) = l := by
  induction l generalizing i with
  | nil => rfl
  | cons a as ih =>
      cases i with
      | zero => simp [List.getD]
      | succ n => simpa [List.getD] using ih n

theorem okLe_total (asc : Bool) (a b : Option ℚ) :
    okLe asc a b = true ∨ okLe asc b a = true := by
  cases a <;> cases b <;> cases asc <;> simp [okLe] <;> exact le_total _ _

theorem okLe_trans {asc : Bool} {a b c : Option ℚ} (h1 : okLe asc a b = true)
    (h2 : okLe asc b c = true) : okLe asc a c = true := by
  cases a <;> cases b <;> cases c <;> cases asc <;> simp_all [okLe]
  · exact le_trans h2 h1
  · exact le_trans h1 h2

theorem okLe_antisymm {asc : Bool} {a b : Option ℚ} (h1 : okLe asc a b = true)
    (h2 : okLe asc b a = true) : a = b := by
  cases a <;> cases b <;> cases asc <;> simp_all [okLe]
  · exact le_antisymm h2 h1
  · exact le_antisymm h1 h2

theorem keyLe_total (a b : Option ℚ × Option ℚ × Option ℚ) :
    keyLe a b = true ∨ keyLe b a = true := by
  unfold keyLe
  by_cases h1 : a.1 = b.1
  · by_cases h2 : a.2.1 = b.2.1
    · simp [h1, h2]
      exact okLe_total true a.2.2 b.2.2
    · simp [h1, h2, Ne.symm h2]
      exact okLe_total false a.2.1 b.2.1
  · simp [h1, Ne.symm h1]
    exact okLe_total false a.1 b.1

theorem keyLe_trans {a b c : Option ℚ × Option ℚ × Option ℚ}
    (h1 : keyLe a b = true) (h2 : keyLe b c = true) : keyLe a c = true := by
  unfold keyLe at h1 h2 ⊢
  by_cases e1 : a.1 = b.1
  · by_cases e2 : b.1 = c.1
    · simp only [e1, e2, if_pos rfl] at *
      by_cases f1 : a.2.1 = b.2.1
      · by_cases f2 : b.2.1 = c.2.1
        · simp only [f1, f2, if_pos rfl] at *
          simp_all
          exact okLe_trans h1 h2
        · have : ¬ a.2.1 = c.2.1 := fun e => f2 (f1 ▸ e)
          simp_all
      · by_cases f2 : b.2.1 = c.2.1
        · have : ¬ a.2.1 = c.2.1 := fun e => f1 (f2 ▸ e)
          simp_all
        · by_cases f3 : a.2.1 = c.2.1
          · exfalso
            simp only [if_neg f1, if_neg f2] at h1 h2
            simp_all
            exact f1 (okLe_antisymm h1 (f3 ▸ h2))
          · simp_all
            exact okLe_trans h1 h2
    · have : ¬ a.1 = c.1 := fun e => e2 (e1 ▸ e)
      simp_all
  · by_cases e2 : b.1 = c.1
    · have : ¬ a.1 = c.1 := fun e => e1 (e2 ▸ e)
      simp_all
    · by_cases e3 : a.1 = c.1
      · exfalso
        simp only [if_neg e1, if_neg e2] at h1 h2
        exact e1 (okLe_antisymm h1 (e3 ▸ h2))
      · simp_all
        exact okLe_trans h1 h2

instance rowLePropTotal (cols : List String) : IsTotal (ℕ × List Cell) (rowLeProp cols) :=
  ⟨fun r s => keyLe_total (keyOf cols r.2) (keyOf cols s.2)⟩

instance rowLePropTrans (cols : List String) : IsTrans (ℕ × List Cell) (rowLeProp cols) :=
  ⟨fun _ _ _ h1 h2 => keyLe_trans h1 h2⟩

theorem filter_stocks_empty {df : DataFrame} (h : df.empty = true) :
    filter_stocks df = df := by
  simp [filter_stocks, h]

theorem filter_stocks_full {df : DataFrame} {cp cm cl ct : String}
    (hne : df.empty = false)
    (hcp : resolveCol df.cols price_cols = some cp)
    (hcm : resolveCol df.cols mktcap_cols = some cm)
    (hcl : resolveCol df.cols lianban_cols = some cl)
    (hct : (timesStep df).2 = some ct) :
    filter_stocks df = filter_full (timesStep df).1 cp cm cl ct := by
  rw [filter_stocks]
  simp [hne, hcp, hcm, hcl, hct]

theorem filter_stocks_fallback {df : DataFrame}
    (hne : df.empty = false)
    (hmiss : resolveCol df.cols price_cols = none ∨ resolveCol df.cols mktcap_cols = none ∨
             resolveCol df.cols lianban_cols = none ∨ (timesStep df).2 = none) :
    filter_stocks df = fallback (timesStep df).1 := by
  rcases hp : resolveCol df.cols price_cols with _ | cp <;>
    rcases hm : resolveCol df.cols mktcap_cols with _ | cm <;>
      rcases hl : resolveCol df.cols lianban_cols with _ | cl <;>
        rcases ht : (timesStep df).2 with _ | ct <;>
          simp [filter_stocks, hne, hp, hm, hl, ht] <;> simp_all

theorem resolveCol_mem {cols cands : List String} {c : String}
    (h : resolveCol cols cands = some c) : c ∈ cands ∧ c ∈ cols := by
  refine ⟨List.mem_of_find?_eq_some h, ?_⟩
  have := List.find?_some h
  simpa using this

theorem colIdx_ne {cols : List String} {c c' : String} (hc : c ∈ cols) (hne : c ≠ c') :
    colIdx cols c ≠ colIdx cols c' := by
  intro e
  by_cases h' : c' ∈ cols
  · have h1 := getElem?_colIdx hc
    have h2 := getElem?_colIdx h'
    rw [← e] at h2
    rw [h1] at h2
    exact hne (Option.some_injective _ h2)
  · have h1 := colIdx_eq_length h'
    have h2 := colIdx_lt_length hc
    omega

theorem mapCol_cols (df : DataFrame) (c : String) (f : Cell → Cell) :
    (df.mapCol c f).cols = df.cols := rfl

theorem numStep_cols (data : DataFrame) (cp cm cl ct : String) :
    (numStep data cp cm cl ct).cols = data.cols := rfl

theorem normStep_cols (data : DataFrame) (cm : String) :
    (normStep data cm).cols = data.cols := by
  unfold normStep
  rcases colMax (data.getCol cm) with _ | m
  · rfl
  · by_cases h : m > 1000 <;> simp [h, mapCol_cols]

theorem prepAll_cols (data : DataFrame) (cp cm cl ct : String) :
    (prepAll data cp cm cl ct).cols = data.cols := by
  unfold prepAll
  rw [normStep_cols, numStep_cols]

theorem mapCol_rows_fst (df : DataFrame) (c : String) (f : Cell → Cell) :
    (df.mapCol c f).rows.map Prod.fst = df.rows.map Prod.fst := by
  simp [DataFrame.mapCol]

theorem mapCol_rows_length (df : DataFrame) (c : String) (f : Cell → Cell) :
    (df.mapCol c f).rows.length = df.rows.length := by
  simp [DataFrame.mapCol]

/-- A cell-wise update leaves every row cell count unchanged. -/
theorem mapCol_WF {df : DataFrame} (hwf : df.WF) (c : String) (f : Cell → Cell) :
    (df.mapCol c f).WF := by
  refine ⟨hwf.1, ?_⟩
  intro r hr
  simp only [DataFrame.mapCol, List.mem_map] at hr
  obtain ⟨ir, hir, rfl⟩ := hr
  simpa using hwf.2 ir hir

theorem normStep_WF {data : DataFrame} (hwf : data.WF) (cm : String) :
    (normStep data cm).WF := by
  unfold normStep
  rcases colMax (data.getCol cm) with _ | m
  · exact hwf
  · by_cases h : m > 1000 <;> simp [h]
    · exact mapCol_WF hwf cm divE8Cell
    · exact hwf

theorem prepAll_WF {data : DataFrame} (hwf : data.WF) (cp cm cl ct : String) :
    (prepAll data cp cm cl ct).WF :=
  normStep_WF (mapCol_WF (mapCol_WF (mapCol_WF (mapCol_WF hwf _ _) _ _) _ _) _ _) cm

theorem setCol_cols (df : DataFrame) (c : String) (vs : List Cell) :
    (df.setCol c vs).cols = df.cols ∨ (df.setCol c vs).cols = df.cols ++ [c] := by
  unfold DataFrame.setCol
  by_cases h : c ∈ df.cols <;> simp [h]

theorem setCol_rows_fst (df : DataFrame) (c : String) {vs : List Cell}
    (hlen : vs.length = df.rows.length) :
    (df.setCol c vs).rows.map Prod.fst = df.rows.map Prod.fst := by
  have hz : (df.rows.zip vs).map Prod.fst = df.rows :=
    List.map_fst_zip df.rows vs (le_of_eq hlen.symm)
  have key : ∀ g : (ℕ × List Cell) × Cell → List Cell,
      ((df.rows.zip vs).map (fun p => (p.1.1, g p))).map Prod.fst = df.rows.map Prod.fst := by
    intro g
    calc ((df.rows.zip vs).map (fun p => (p.1.1, g p))).map Prod.fst
        = ((df.rows.zip vs).map Prod.fst).map Prod.fst := by
          rw [List.map_map, List.map_map]; rfl
      _ = df.rows.map Prod.fst := by rw [hz]
  unfold DataFrame.setCol
  by_cases h : c ∈ df.cols
  · simpa [h] using key _
  · simpa [h] using key _

/-- The parse step: its first component is either the table unchanged or the
table with the parsed column written. -/
theorem timesStep_fst (df : DataFrame) :
    (timesStep df).1 = df ∨
    (timesStep df).1 =
      df.setCol parsedTimesCol
        ((df.getCol "涨停统计").map (fun x => Cell.num (extract_half_year_times x))) := by
  unfold timesStep
  rcases resolveCol df.cols times_cols with _ | c
  · exact Or.inl rfl
  · by_cases h : c = "涨停统计" <;> simp [h]

theorem timesStep_snd_spec {df : DataFrame} {ct : String}
    (h : (timesStep df).2 = some ct) :
    (ct ∈ times_cols ∧ ct ≠ "涨停统计" ∧ ct ∈ df.cols ∧ (timesStep df).1 = df) ∨
    (ct = parsedTimesCol ∧
     (timesStep df).1 =
       df.setCol parsedTimesCol
         ((df.getCol "涨停统计").map (fun x => Cell.num (extract_half_year_times x)))) := by
  unfold timesStep at h ⊢
  rcases hr : resolveCol df.cols times_cols with _ | c
  · rw [hr] at h; cases h
  · rw [hr] at h
    by_cases hc : c = "涨停统计"
    · right
      simp [hc] at h ⊢
      exact h.symm
    · left
      simp [hc] at h ⊢
      subst h
      exact ⟨(resolveCol_mem hr).1, hc, (resolveCol_mem hr).2⟩

/-- The four resolved labels together with the code/name labels are always
pairwise distinct (finite check over all candidate combinations). -/
theorem resolved_nodup :
    ∀ cp ∈ price_cols, ∀ cm ∈ mktcap_cols, ∀ cl ∈ lianban_cols,
      ∀ ct ∈ times_cols ++ [parsedTimesCol],
        List.Nodup [col_code, col_name, cp, cm, cl, ct] := by decide

theorem cellLt_iff {x : Cell} {b : ℚ} : cellLt x b = true ↔ ∃ q, x = Cell.num q ∧ q < b := by
  cases x <;> simp [cellLt]

theorem cellGe_iff {x : Cell} {b : ℚ} : cellGe x b = true ↔ ∃ q, x = Cell.num q ∧ b ≤ q := by
  cases x <;> simp [cellGe]

theorem cellEq_iff {x : Cell} {b : ℚ} : cellEq x b = true ↔ x = Cell.num b := by
  cases x <;> simp [cellEq]

/-- The pairwise distinctness facts needed about the resolved labels, closed
over all candidate combinations. -/
theorem resolved_ne :
    ∀ cp ∈ price_cols, ∀ cm ∈ mktcap_cols, ∀ cl ∈ lianban_cols,
      ∀ ct ∈ times_cols ++ [parsedTimesCol],
        cp ≠ col_code ∧ cp ≠ col_name ∧ cm ≠ col_code ∧ cm ≠ col_name ∧ cm ≠ cp ∧
        cl ≠ col_code ∧ cl ≠ col_name ∧ cl ≠ cp ∧ cl ≠ cm ∧
        ct ≠ col_code ∧ ct ≠ col_name ∧ ct ≠ cp ∧ ct ≠ cm ∧ ct ≠ cl := by decide

/-- The rename map sends the kept labels to the display labels. -/
theorem selectedTable_cols {data : DataFrame} {cp cm cl ct : String}
    (h : cp ≠ col_code ∧ cp ≠ col_name ∧ cm ≠ col_code ∧ cm ≠ col_name ∧ cm ≠ cp ∧
         cl ≠ col_code ∧ cl ≠ col_name ∧ cl ≠ cp ∧ cl ≠ cm ∧
         ct ≠ col_code ∧ ct ≠ col_name ∧ ct ≠ cp ∧ ct ≠ cm ∧ ct ≠ cl) :
    (selectedTable data cp cm cl ct).cols = displayCols := by
  obtain ⟨h1, h2, h3, h4, h5, h6, h7, h8, h9, h10, h11, h12, h13, h14⟩ := h
  show (keepCols cp cm cl ct).map (applyRename (renameMap cp cm cl ct)) = displayCols
  simp +decide [keepCols, renameMap, displayCols, applyRename,
    Ne.symm h1, Ne.symm h2, Ne.symm h3, Ne.symm h4, Ne.symm h5, Ne.symm h6, Ne.symm h7,
    Ne.symm h8, Ne.symm h9, Ne.symm h10, Ne.symm h11, Ne.symm h12, Ne.symm h13, Ne.symm h14]

theorem selectedTable_rows (data : DataFrame) (cp cm cl ct : String) :
    (selectedTable data cp cm cl ct).rows
      = ((prepAll data cp cm cl ct).rows.filter
          (fun ir => condAll (prepAll data cp cm cl ct).cols cp cm cl ct ir.2)).map
          (fun ir => (ir.1, (keepCols cp cm cl ct).map (getCell (prepAll data cp cm cl ct).cols ir.2))) :=
  rfl

/-- Reading the projected row at each display label gives the source cell of
the corresponding resolved column (pure position computation). -/
theorem proj_code (cols : List String) (cp cm cl ct : String) (r : List Cell) :
    getCell displayCols ((keepCols cp cm cl ct).map (getCell cols r)) "代码"
      = getCell cols r col_code := by
  have hi : colIdx displayCols "代码" = 0 := by decide
  show ((keepCols cp cm cl ct).map (getCell cols r)).getD (colIdx displayCols "代码") Cell.null = _
  rw [hi]; rfl

theorem proj_name (cols : List String) (cp cm cl ct : String) (r : List Cell) :
    getCell displayCols ((keepCols cp cm cl ct).map (getCell cols r)) "名称"
      = getCell cols r col_name := by
  have hi : colIdx displayCols "名称" = 1 := by decide
  show ((keepCols cp cm cl ct).map (getCell cols r)).getD (colIdx displayCols "名称") Cell.null = _
  rw [hi]; rfl

theorem proj_price (cols : List String) (cp cm cl ct : String) (r : List Cell) :
    getCell displayCols ((keepCols cp cm cl ct).map (getCell cols r)) "最新价"
      = getCell cols r cp := by
  have hi : colIdx displayCols "最新价" = 2 := by decide
  show ((keepCols cp cm cl ct).map (getCell cols r)).getD (colIdx displayCols "最新价") Cell.null = _
  rw [hi]; rfl

theorem proj_mktcap (cols : List String) (cp cm cl ct : String) (r : List Cell) :
    getCell displayCols ((keepCols cp cm cl ct).map (getCell cols r)) "总市值(亿)"
      = getCell cols r cm := by
  have hi : colIdx displayCols "总市值(亿)" = 3 := by decide
  show ((keepCols cp cm cl ct).map (getCell cols r)).getD (colIdx displayCols "总市值(亿)") Cell.null = _
  rw [hi]; rfl

theorem proj_lianban (cols : List String) (cp cm cl ct : String) (r : List Cell) :
    getCell displayCols ((keepCols cp cm cl ct).map (getCell cols r)) "连板数"
      = getCell cols r cl := by
  have hi : colIdx displayCols "连板数" = 4 := by decide
  show ((keepCols cp cm cl ct).map (getCell cols r)).getD (colIdx displayCols "连板数") Cell.null = _
  rw [hi]; rfl

theorem proj_times (cols : List String) (cp cm cl ct : String) (r : List Cell) :
    getCell displayCols ((keepCols cp cm cl ct).map (getCell cols r)) "近半年涨停次数"
      = getCell cols r ct := by
  have hi : colIdx displayCols "近半年涨停次数" = 5 := by decide
  show ((keepCols cp cm cl ct).map (getCell cols r)).getD (colIdx displayCols "近半年涨停次数") Cell.null = _
  rw [hi]; rfl

/-- A row passing the conjoined filter projects to a row meeting all five
conditions at the display labels. -/
theorem rowMeets_of_condAll {cols : List String} {cp cm cl ct : String} {r : List Cell}
    (h : condAll cols cp cm cl ct r = true) :
    rowMeets ((keepCols cp cm cl ct).map (getCell cols r)) := by
  unfold condAll at h
  simp only [Bool.and_eq_true] at h
  refine ⟨?_, ?_, ?_, ?_, ?_⟩
  · rw [proj_price]; exact h.1.1.1.1
  · rw [proj_mktcap]; exact h.1.1.1.2
  · rw [proj_times]; exact h.1.1.2
  · rw [proj_lianban]; exact h.1.2
  · rw [proj_lianban]; exact h.2

theorem resetIndex_map_snd (df : DataFrame) :
    df.resetIndex.rows.map Prod.snd = df.rows.map Prod.snd := by
  show (df.rows.enum.map (fun p => (p.1, p.2.2))).map Prod.snd = _
  calc (df.rows.enum.map (fun p => (p.1, p.2.2))).map Prod.snd
      = (df.rows.enum.map Prod.snd).map Prod.snd := by
        rw [List.map_map, List.map_map]; rfl
    _ = df.rows.map Prod.snd := by rw [List.enum_map_snd]

theorem resetIndex_map_fst (df : DataFrame) :
    df.resetIndex.rows.map Prod.fst = List.range df.rows.length := by
  show (df.rows.enum.map (fun p => (p.1, p.2.2))).map Prod.fst = _
  calc (df.rows.enum.map (fun p => (p.1, p.2.2))).map Prod.fst
      = df.rows.enum.map Prod.fst := by rw [List.map_map]; rfl
    _ = List.range df.rows.length := List.enum_map_fst df.rows

theorem resetIndex_length (df : DataFrame) :
    df.resetIndex.rows.length = df.rows.length := by
  simp [DataFrame.resetIndex, List.enum_length]

theorem filter_full_map_snd (data : DataFrame) (cp cm cl ct : String) :
    (filter_full data cp cm cl ct).rows.map Prod.snd
      = (List.insertionSort (rowLeProp (selectedTable data cp cm cl ct).cols)
          (selectedTable data cp cm cl ct).rows).map Prod.snd :=
  resetIndex_map_snd _

theorem filter_full_perm (data : DataFrame) (cp cm cl ct : String) :
    ((filter_full data cp cm cl ct).rows.map Prod.snd).Perm
      ((selectedTable data cp cm cl ct).rows.map Prod.snd) := by
  rw [filter_full_map_snd]
  exact (List.perm_insertionSort _ _).map _

/-- Every cell row of the full-branch output meets all five conditions. -/
theorem filter_full_rows_meet (data : DataFrame) (cp cm cl ct : String) :
    ∀ c ∈ (filter_full data cp cm cl ct).rows.map Prod.snd, rowMeets c := by
  intro c hc
  have hmem : c ∈ (selectedTable data cp cm cl ct).rows.map Prod.snd :=
    (filter_full_perm data cp cm cl ct).mem_iff.mp hc
  rw [selectedTable_rows, List.map_map] at hmem
  obtain ⟨ir, hir, hc2⟩ := List.mem_map.mp hmem
  have hcond := (List.mem_filter.mp hir).2
  have := rowMeets_of_condAll hcond
  exact hc2 ▸ this

theorem keyLe_refl (a : Option ℚ × Option ℚ × Option ℚ) : keyLe a a = true := by
  unfold keyLe
  simp only [if_pos rfl]
  rcases a.2.2 with _ | q
  · rfl
  · simp [okLe]

/-- Stability of the embedded sort: rows with any fixed key triple keep
their relative order. -/
theorem insertionSort_key_filter (cols : List String) (l : List (ℕ × List Cell))
    (k : Option ℚ × Option ℚ × Option ℚ) :
    (List.insertionSort (rowLeProp cols) l).filter (fun ir => decide (keyOf cols ir.2 = k))
      = l.filter (fun ir => decide (keyOf cols ir.2 = k)) := by
  set p : ℕ × List Cell → Bool := fun ir => decide (keyOf cols ir.2 = k) with hp
  have hkey : ∀ ir, p ir = true → keyOf cols ir.2 = k := by
    intro ir h
    exact of_decide_eq_true h
  have hpair : (l.filter p).Pairwise (rowLeProp cols) := by
    apply List.pairwise_of_forall_mem_list
    intro a ha b hb
    have ka := hkey a (List.mem_filter.mp ha).2
    have kb := hkey b (List.mem_filter.mp hb).2
    show keyLe (keyOf cols a.2) (keyOf cols b.2) = true
    rw [ka, kb]
    exact keyLe_refl k
  have hsub : (l.filter p).Sublist (List.insertionSort (rowLeProp cols) l) :=
    List.sublist_insertionSort hpair (List.filter_sublist l)
  have hself : (l.filter p).filter p = l.filter p :=
    List.filter_eq_self.mpr (fun a ha => (List.mem_filter.mp ha).2)
  have hsub2 : (l.filter p).Sublist ((List.insertionSort (rowLeProp cols) l).filter p) := by
    have := hsub.filter p
    rwa [hself] at this
  have hperm : ((List.insertionSort (rowLeProp cols) l).filter p).Perm (l.filter p) :=
    (List.perm_insertionSort (rowLeProp cols) l).filter p
  exact (hsub2.eq_of_length hperm.length_eq.symm).symm

/-- Sortedness of the full-branch output, at the level of cell rows. -/
theorem filter_full_sorted (data : DataFrame) (cp cm cl ct : String)
    (hcols : (selectedTable data cp cm cl ct).cols = displayCols) :
    ((filter_full data cp cm cl ct).rows.map Prod.snd).Pairwise
      (fun r s => keyLe (keyOf displayCols r) (keyOf displayCols s) = true) := by
  rw [filter_full_map_snd, hcols, List.pairwise_map]
  exact List.sorted_insertionSort (rowLeProp displayCols) (selectedTable data cp cm cl ct).rows

/-- Stability of the full-branch output relative to the pre-sort table. -/
theorem filter_full_stable (data : DataFrame) (cp cm cl ct : String)
    (hcols : (selectedTable data cp cm cl ct).cols = displayCols)
    (k : Option ℚ × Option ℚ × Option ℚ) :
    ((filter_full data cp cm cl ct).rows.map Prod.snd).filter
        (fun c => decide (keyOf displayCols c = k))
      = ((selectedTable data cp cm cl ct).rows.map Prod.snd).filter
        (fun c => decide (keyOf displayCols c = k)) := by
  rw [filter_full_map_snd, hcols, List.filter_map, List.filter_map]
  congr 1
  exact insertionSort_key_filter displayCols (selectedTable data cp cm cl ct).rows k

/-- The output index is the contiguous 0-based range. -/
theorem filter_full_idx (data : DataFrame) (cp cm cl ct : String) :
    (filter_full data cp cm cl ct).rows.map Prod.fst
      = List.range (filter_full data cp cm cl ct).rows.length := by
  show (DataFrame.resetIndex _).rows.map Prod.fst = _
  have hlen : (filter_full data cp cm cl ct).rows.length
      = (selectedTable data cp cm cl ct).sortStep.rows.length := resetIndex_length _
  rw [resetIndex_map_fst, hlen]

theorem resolved_ne_of {df : DataFrame} {cp cm cl ct : String}
    (hcp : resolveCol df.cols price_cols = some cp)
    (hcm : resolveCol df.cols mktcap_cols = some cm)
    (hcl : resolveCol df.cols lianban_cols = some cl)
    (hct : (timesStep df).2 = some ct) :
    cp ≠ col_code ∧ cp ≠ col_name ∧ cm ≠ col_code ∧ cm ≠ col_name ∧ cm ≠ cp ∧
    cl ≠ col_code ∧ cl ≠ col_name ∧ cl ≠ cp ∧ cl ≠ cm ∧
    ct ≠ col_code ∧ ct ≠ col_name ∧ ct ≠ cp ∧ ct ≠ cm ∧ ct ≠ cl := by
  have h4 : ct ∈ times_cols ++ [parsedTimesCol] := by
    rcases timesStep_snd_spec hct with ⟨hm, _, _, _⟩ | ⟨he, _⟩
    · exact List.mem_append_left _ hm
    · rw [he]
      simp
  exact resolved_ne cp (resolveCol_mem hcp).1 cm (resolveCol_mem hcm).1
    cl (resolveCol_mem hcl).1 ct h4

theorem keyLe_num_decode {t l c t' l' c' : ℚ}
    (h : keyLe (some t, some l, some c) (some t', some l', some c') = true) :
    t' < t ∨ (t = t' ∧ (l' < l ∨ (l = l' ∧ c ≤ c'))) := by
  unfold keyLe at h
  by_cases e1 : (some t : Option ℚ) = some t'
  · rw [if_pos e1] at h
    by_cases e2 : (some l : Option ℚ) = some l'
    · rw [if_pos e2] at h
      exact Or.inr ⟨Option.some_injective _ e1,
        Or.inr ⟨Option.some_injective _ e2, by simpa [okLe] using h⟩⟩
    · rw [if_neg e2] at h
      have hle : l' ≤ l := by simpa [okLe] using h
      refine Or.inr ⟨Option.some_injective _ e1, Or.inl (lt_of_le_of_ne hle ?_)⟩
      intro e
      exact e2 (by rw [e])
  · rw [if_neg e1] at h
    have hle : t' ≤ t := by simpa [okLe] using h
    refine Or.inl (lt_of_le_of_ne hle ?_)
    intro e
    exact e1 (by rw [e])

theorem rowMeets_keys_num {r : List Cell} (h : rowMeets r) :
    ∃ t l c : ℚ, getCell displayCols r "近半年涨停次数" = Cell.num t ∧
      getCell displayCols r "连板数" = Cell.num l ∧
      getCell displayCols r "总市值(亿)" = Cell.num c := by
  obtain ⟨_, h2, h3, h4, _⟩ := h
  obtain ⟨t, ht, _⟩ := cellGe_iff.mp h3
  obtain ⟨l, hl, _⟩ := cellLt_iff.mp h4
  obtain ⟨c, hc, _⟩ := cellLt_iff.mp h2
  exact ⟨t, l, c, ht, hl, hc⟩

/-- **C1**  For an input table in which all four logical fields resolve to
present columns (and the code/name columns exist, so that the original
routine returns rather than raising at the projection), every cell row of
the table returned by `filter_stocks` satisfies all five threshold
conditions, and the output rows are exactly (as a multiset, the sort being
the only reordering) the projections of the preprocessed rows that satisfy
the conjunction of the five conditions. -/
theorem C1_output_rows_characterized
    (df : DataFrame) (cp cm cl ct : String)
    (hne : df.empty = false)
    (hcp : resolveCol df.cols price_cols = some cp)
    (hcm : resolveCol df.cols mktcap_cols = some cm)
    (hcl : resolveCol df.cols lianban_cols = some cl)
    (hct : (timesStep df).2 = some ct)
    (_hcode : col_code ∈ df.cols) (_hname : col_name ∈ df.cols) :
    (∀ c ∈ (filter_stocks df).rows.map Prod.snd, rowMeets c) ∧
    ((filter_stocks df).rows.map Prod.snd).Perm
      (((prepAll (timesStep df).1 cp cm cl ct).rows.filter
          (fun ir => condAll (prepAll (timesStep df).1 cp cm cl ct).cols cp cm cl ct ir.2)).map
        (fun ir => (keepCols cp cm cl ct).map
          (getCell (prepAll (timesStep df).1 cp cm cl ct).cols ir.2))) := by
  rw [filter_stocks_full hne hcp hcm hcl hct]
  constructor
  · exact filter_full_rows_meet (timesStep df).1 cp cm cl ct
  · have h := filter_full_perm (timesStep df).1 cp cm cl ct
    rw [selectedTable_rows, List.map_map] at h
    exact h

theorem C1_witness :
    (∀ c ∈ (filter_stocks exTable).rows.map Prod.snd, rowMeets c) ∧
    ((filter_stocks exTable).rows.map Prod.snd).Perm
      (((prepAll (timesStep exTable).1 "最新价" "总市值" "连续涨停天数" parsedTimesCol).rows.filter
          (fun ir => condAll (prepAll (timesStep exTable).1 "最新价" "总市值" "连续涨停天数"
            parsedTimesCol).cols "最新价" "总市值" "连续涨停天数" parsedTimesCol ir.2)).map
        (fun ir => (keepCols "最新价" "总市值" "连续涨停天数" parsedTimesCol).map
          (getCell (prepAll (timesStep exTable).1 "最新价" "总市值" "连续涨停天数"
            parsedTimesCol).cols ir.2))) :=
  C1_output_rows_characterized exTable "最新价" "总市值" "连续涨停天数" parsedTimesCol
    (by decide) (by decide) (by decide) (by decide) (by decide) (by decide) (by decide)

/-- **C4**  For an input table with all four fields resolvable, the returned
table is sorted by half-year count descending, then consecutive-limit-days
descending, then market cap ascending; the sort is stable (rows with equal
key triples keep their pre-sort relative order, the pre-sort order being the
filtered projected table `selectedTable`); and the row index is reset to the
contiguous 0-based range. -/
theorem C4_output_sorted_stable_reset
    (df : DataFrame) (cp cm cl ct : String)
    (hne : df.empty = false)
    (hcp : resolveCol df.cols price_cols = some cp)
    (hcm : resolveCol df.cols mktcap_cols = some cm)
    (hcl : resolveCol df.cols lianban_cols = some cl)
    (hct : (timesStep df).2 = some ct)
    (_hcode : col_code ∈ df.cols) (_hname : col_name ∈ df.cols) :
    ((filter_stocks df).rows.map Prod.snd).Pairwise (fun r s =>
      ∃ t l c t' l' c' : ℚ,
        getCell displayCols r "近半年涨停次数" = Cell.num t ∧
        getCell displayCols s "近半年涨停次数" = Cell.num t' ∧
        getCell displayCols r "连板数" = Cell.num l ∧
        getCell displayCols s "连板数" = Cell.num l' ∧
        getCell displayCols r "总市值(亿)" = Cell.num c ∧
        getCell displayCols s "总市值(亿)" = Cell.num c' ∧
        (t' < t ∨ (t = t' ∧ (l' < l ∨ (l = l' ∧ c ≤ c'))))) ∧
    (∀ k : Option ℚ × Option ℚ × Option ℚ,
      ((filter_stocks df).rows.map Prod.snd).filter
          (fun c => decide (keyOf displayCols c = k))
        = ((selectedTable (timesStep df).1 cp cm cl ct).rows.map Prod.snd).filter
          (fun c => decide (keyOf displayCols c = k))) ∧
    (filter_stocks df).rows.map Prod.fst = List.range (filter_stocks df).rows.length := by
  have hcols : (selectedTable (timesStep df).1 cp cm cl ct).cols = displayCols :=
    selectedTable_cols (resolved_ne_of hcp hcm hcl hct)
  rw [filter_stocks_full hne hcp hcm hcl hct]
  refine ⟨?_, ?_, ?_⟩
  · have hsorted := filter_full_sorted (timesStep df).1 cp cm cl ct hcols
    have hmeet := filter_full_rows_meet (timesStep df).1 cp cm cl ct
    refine hsorted.imp_of_mem ?_
    intro r s hr hs hkle
    obtain ⟨t, l, c, ht, hl, hc⟩ := rowMeets_keys_num (hmeet r hr)
    obtain ⟨t', l', c', ht', hl', hc'⟩ := rowMeets_keys_num (hmeet s hs)
    refine ⟨t, l, c, t', l', c', ht, ht', hl, hl', hc, hc', ?_⟩
    apply keyLe_num_decode
    have : keyOf displayCols r = (some t, some l, some c) := by
      simp [keyOf, ht, hl, hc, cellKey]
    have h2 : keyOf displayCols s = (some t', some l', some c') := by
      simp [keyOf, ht', hl', hc', cellKey]
    rwa [this, h2] at hkle
  · intro k
    exact filter_full_stable (timesStep df).1 cp cm cl ct hcols k
  · exact filter_full_idx (timesStep df).1 cp cm cl ct

theorem C4_witness :
    ((filter_stocks exTable).rows.map Prod.snd).Pairwise (fun r s =>
      ∃ t l c t' l' c' : ℚ,
        getCell displayCols r "近半年涨停次数" = Cell.num t ∧
        getCell displayCols s "近半年涨停次数" = Cell.num t' ∧
        getCell displayCols r "连板数" = Cell.num l ∧
        getCell displayCols s "连板数" = Cell.num l' ∧
        getCell displayCols r "总市值(亿)" = Cell.num c ∧
        getCell displayCols s "总市值(亿)" = Cell.num c' ∧
        (t' < t ∨ (t = t' ∧ (l' < l ∨ (l = l' ∧ c ≤ c'))))) ∧
    (∀ k : Option ℚ × Option ℚ × Option ℚ,
      ((filter_stocks exTable).rows.map Prod.snd).filter
          (fun c => decide (keyOf displayCols c = k))
        = ((selectedTable (timesStep exTable).1 "最新价" "总市值" "连续涨停天数"
            parsedTimesCol).rows.map Prod.snd).filter
          (fun c => decide (keyOf displayCols c = k))) ∧
    (filter_stocks exTable).rows.map Prod.fst
      = List.range (filter_stocks exTable).rows.length :=
  C4_output_sorted_stable_reset exTable "最新价" "总市值" "连续涨停天数" parsedTimesCol
    (by decide) (by decide) (by decide) (by decide) (by decide) (by decide) (by decide)

/-- **C7**  Value-coercion failures never raise: an unparseable string cell
is coerced to the null marker by `pd.to_numeric(errors="coerce")`, every
threshold comparison on the null marker is false, and hence a preprocessed
row with a null cell in any of the four resolved columns is excluded from
the output (its projection occurs nowhere in the returned rows). -/
theorem C7_nonnumeric_cell_excluded
    (df : DataFrame) (cp cm cl ct : String)
    (hne : df.empty = false)
    (hcp : resolveCol df.cols price_cols = some cp)
    (hcm : resolveCol df.cols mktcap_cols = some cm)
    (hcl : resolveCol df.cols lianban_cols = some cl)
    (hct : (timesStep df).2 = some ct)
    (_hcode : col_code ∈ df.cols) (_hname : col_name ∈ df.cols) :
    (∀ s : String, parsePyFloatChars s.data = none →
      toNumericCell (Cell.str s) = Cell.null) ∧
    (∀ b : ℚ, cellLt Cell.null b = false ∧ cellGe Cell.null b = false ∧
      cellEq Cell.null b = false) ∧
    (∀ ir ∈ (prepAll (timesStep df).1 cp cm cl ct).rows,
      (getCell (prepAll (timesStep df).1 cp cm cl ct).cols ir.2 cp = Cell.null ∨
       getCell (prepAll (timesStep df).1 cp cm cl ct).cols ir.2 cm = Cell.null ∨
       getCell (prepAll (timesStep df).1 cp cm cl ct).cols ir.2 cl = Cell.null ∨
       getCell (prepAll (timesStep df).1 cp cm cl ct).cols ir.2 ct = Cell.null) →
      ((keepCols cp cm cl ct).map (getCell (prepAll (timesStep df).1 cp cm cl ct).cols ir.2))
        ∉ (filter_stocks df).rows.map Prod.snd) := by
  refine ⟨?_, ?_, ?_⟩
  · intro s h
    simp [toNumericCell, h]
  · intro b
    exact ⟨rfl, rfl, rfl⟩
  · intro ir _ hnull hmem
    rw [filter_stocks_full hne hcp hcm hcl hct] at hmem
    have hmeets := filter_full_rows_meet (timesStep df).1 cp cm cl ct _ hmem
    obtain ⟨m1, m2, m3, m4, m5⟩ := hmeets
    rcases hnull with h | h | h | h
    · rw [proj_price, h] at m1
      cases m1
    · rw [proj_mktcap, h] at m2
      cases m2
    · rw [proj_lianban, h] at m4
      cases m4
    · rw [proj_times, h] at m3
      cases m3

theorem C7_witness :
    ((keepCols "最新价" "总市值" "连续涨停天数" parsedTimesCol).map
        (getCell (prepAll (timesStep exC7).1 "最新价" "总市值" "连续涨停天数"
          parsedTimesCol).cols
          [Cell.str "000001", Cell.str "甲", Cell.null, Cell.num 50, Cell.num 1,
           Cell.str "5/3", Cell.num 3]))
      ∉ (filter_stocks exC7).rows.map Prod.snd :=
  (C7_nonnumeric_cell_excluded exC7 "最新价" "总市值" "连续涨停天数" parsedTimesCol
      (by decide) (by decide) (by decide) (by decide) (by decide) (by decide) (by decide)).2.2
    (0, [Cell.str "000001", Cell.str "甲", Cell.null, Cell.num 50, Cell.num 1,
         Cell.str "5/3", Cell.num 3])
    (by decide) (by decide)

theorem filter_stocks_variant_full {df : DataFrame} {cp cm cl ct : String}
    (hne : df.empty = false)
    (hcp : resolveCol df.cols price_cols = some cp)
    (hcm : resolveCol df.cols mktcap_cols = some cm)
    (hcl : resolveCol df.cols lianban_cols = some cl)
    (hct : (timesStep df).2 = some ct) :
    filter_stocks_variant df = filter_fullVariant (timesStep df).1 cp cm cl ct := by
  rw [filter_stocks_variant]
  simp [hne, hcp, hcm, hcl, hct]

/-- The first-board equality `== 1` forces `< 4`, so the two conjunctions
agree on every row. -/
theorem condAll_eq_variant (cols : List String) (cp cm cl ct : String) (r : List Cell) :
    condAll cols cp cm cl ct r = condAllVariant cols cp cm cl ct r := by
  unfold condAll condAllVariant
  rcases h : cellEq (getCell cols r cl) 1 with _ | _
  · simp [h]
  · have hcell : getCell cols r cl = Cell.num 1 := cellEq_iff.mp h
    have hlt : cellLt (getCell cols r cl) 4 = true := by
      rw [hcell]
      simp [cellLt]
    rw [hcell] at h hlt ⊢
    simp [h, hlt]

theorem selectedTable_variant_eq (data : DataFrame) (cp cm cl ct : String) :
    selectedTableVariant data cp cm cl ct = selectedTable data cp cm cl ct := by
  unfold selectedTable selectedTableVariant DataFrame.filterRows
  have : (prepAll data cp cm cl ct).rows.filter
        (fun ir => condAllVariant (prepAll data cp cm cl ct).cols cp cm cl ct ir.2)
      = (prepAll data cp cm cl ct).rows.filter
        (fun ir => condAll (prepAll data cp cm cl ct).cols cp cm cl ct ir.2) := by
    apply List.filter_congr
    intro ir _
    exact (condAll_eq_variant _ cp cm cl ct ir.2).symm
  rw [this]

/-- **C8**  On every table where all four fields resolve, `filter_stocks`
returns exactly the same table as the variant that omits the
`consecutive_limit_days < 4` condition and keeps only the first-board
condition: the first-board equality subsumes the streak-length guard. -/
theorem C8_first_board_subsumes
    (df : DataFrame) (cp cm cl ct : String)
    (hne : df.empty = false)
    (hcp : resolveCol df.cols price_cols = some cp)
    (hcm : resolveCol df.cols mktcap_cols = some cm)
    (hcl : resolveCol df.cols lianban_cols = some cl)
    (hct : (timesStep df).2 = some ct) :
    filter_stocks df = filter_stocks_variant df := by
  rw [filter_stocks_full hne hcp hcm hcl hct, filter_stocks_variant_full hne hcp hcm hcl hct]
  unfold filter_full filter_fullVariant
  rw [selectedTable_variant_eq]

theorem C8_witness : filter_stocks exTable = filter_stocks_variant exTable :=
  C8_first_board_subsumes exTable "最新价" "总市值" "连续涨停天数" parsedTimesCol
    (by decide) (by decide) (by decide) (by decide) (by decide)

theorem getD_set_of_lt {α : Type} {l : List α} {i : ℕ} (h : i < l.length) (v d : α) :
    (l.set i v).getD i d = v := by
  simp [List.getD_eq_getElem?_getD, List.getElem?_set_self h]

theorem timesStep_snd_none {df : DataFrame} :
    (timesStep df).2 = none ↔ resolveCol df.cols times_cols = none := by
  unfold timesStep
  rcases h : resolveCol df.cols times_cols with _ | c
  · simp
  · by_cases hc : c = "涨停统计" <;> simp [hc]

/-- Column projection ignores an assignment to a different column. -/
theorem select_setCol {df : DataFrame} (hwf : df.WF) {n : String} {vs : List Cell}
    (hlen : vs.length = df.rows.length) {cs : List String}
    (hcs : ∀ c ∈ cs, c ∈ df.cols ∧ c ≠ n) :
    (df.setCol n vs).select cs = df.select cs := by
  have hfst : (df.rows.zip vs).map Prod.fst = df.rows :=
    List.map_fst_zip _ _ (le_of_eq hlen.symm)
  unfold DataFrame.select
  by_cases hn : n ∈ df.cols
  · simp only [DataFrame.setCol, if_pos hn]
    congr 1
    rw [List.map_map]
    calc (df.rows.zip vs).map
          (fun p => ((p.1.1 : ℕ),
            cs.map (getCell df.cols (p.1.2.set (colIdx df.cols n) p.2))))
        = (df.rows.zip vs).map (fun p => (p.1.1, cs.map (getCell df.cols p.1.2))) := by
          apply List.map_congr_left
          intro p _
          refine congrArg _ ?_
          apply List.map_congr_left
          intro c hc
          unfold getCell
          refine getD_set_ne ?_ _ _
          intro e
          exact colIdx_ne (hcs c hc).1 (hcs c hc).2 e.symm
      _ = df.rows.map (fun ir => (ir.1, cs.map (getCell df.cols ir.2))) := by
          rw [show (fun p : (ℕ × List Cell) × Cell => ((p.1.1 : ℕ), cs.map (getCell df.cols p.1.2)))
              = ((fun ir : ℕ × List Cell => (ir.1, cs.map (getCell df.cols ir.2))) ∘ Prod.fst)
            from rfl]
          rw [← List.map_map, hfst]
  · simp only [DataFrame.setCol, if_neg hn]
    congr 1
    rw [List.map_map]
    calc (df.rows.zip vs).map
          (fun p => ((p.1.1 : ℕ), cs.map (getCell (df.cols ++ [n]) (p.1.2 ++ [p.2]))))
        = (df.rows.zip vs).map (fun p => (p.1.1, cs.map (getCell df.cols p.1.2))) := by
          apply List.map_congr_left
          intro p hp
          refine congrArg _ ?_
          apply List.map_congr_left
          intro c hc
          unfold getCell
          rw [colIdx_append_left (hcs c hc).1]
          have hmem : p.1 ∈ df.rows := (List.of_mem_zip hp).1
          have hrlen : p.1.2.length = df.cols.length := hwf.2 p.1 hmem
          have hidx : colIdx df.cols c < p.1.2.length := by
            rw [hrlen]
            exact colIdx_lt_length (hcs c hc).1
          exact List.getD_append _ _ _ _ hidx
      _ = df.rows.map (fun ir => (ir.1, cs.map (getCell df.cols ir.2))) := by
          rw [show (fun p : (ℕ × List Cell) × Cell => ((p.1.1 : ℕ), cs.map (getCell df.cols p.1.2)))
              = ((fun ir : ℕ × List Cell => (ir.1, cs.map (getCell df.cols ir.2))) ∘ Prod.fst)
            from rfl]
          rw [← List.map_map, hfst]

/-- The parse step leaves any projection away from the parsed column
unchanged. -/
theorem select_timesStep {df : DataFrame} (hwf : df.WF) {cs : List String}
    (hcs : ∀ c ∈ cs, c ∈ df.cols ∧ c ≠ parsedTimesCol) :
    (timesStep df).1.select cs = df.select cs := by
  rcases timesStep_fst df with heq | heq
  · rw [heq]
  · rw [heq]
    apply select_setCol hwf _ hcs
    simp [DataFrame.getCol]

theorem timesStep_cols_mem {df : DataFrame} {c : String} (h : c ∈ df.cols) :
    c ∈ (timesStep df).1.cols := by
  rcases timesStep_fst df with heq | heq
  · rw [heq]; exact h
  · rw [heq]
    rcases setCol_cols df parsedTimesCol _ with h2 | h2 <;> rw [h2]
    · exact h
    · exact List.mem_append_left _ h

/-- Shared helper: whenever one of the four fields is unresolvable and the
code/name columns exist, `filter_stocks` returns exactly the code/name
projection of the input, rows and order untouched. -/
theorem missing_passthrough (df : DataFrame) (hwf : df.WF) (hne : df.empty = false)
    (hmiss : resolveCol df.cols price_cols = none ∨ resolveCol df.cols mktcap_cols = none ∨
             resolveCol df.cols lianban_cols = none ∨ resolveCol df.cols times_cols = none)
    (hcode : col_code ∈ df.cols) (hname : col_name ∈ df.cols) :
    filter_stocks df = ⟨[col_code, col_name],
      df.rows.map (fun ir =>
        (ir.1, [getCell df.cols ir.2 col_code, getCell df.cols ir.2 col_name]))⟩ := by
  have hmiss2 : resolveCol df.cols price_cols = none ∨ resolveCol df.cols mktcap_cols = none ∨
      resolveCol df.cols lianban_cols = none ∨ (timesStep df).2 = none := by
    rcases hmiss with h | h | h | h
    · exact Or.inl h
    · exact Or.inr (Or.inl h)
    · exact Or.inr (Or.inr (Or.inl h))
    · exact Or.inr (Or.inr (Or.inr (timesStep_snd_none.mpr h)))
  rw [filter_stocks_fallback hne hmiss2]
  unfold fallback
  rw [if_pos ⟨timesStep_cols_mem hcode, timesStep_cols_mem hname⟩]
  have hsel : (timesStep df).1.select [col_code, col_name] = df.select [col_code, col_name] := by
    apply select_timesStep hwf
    intro c hc
    rcases List.mem_cons.mp hc with rfl | hc2
    · exact ⟨hcode, by decide⟩
    · rcases List.mem_cons.mp hc2 with rfl | hc3
      · exact ⟨hname, by decide⟩
      · cases hc3
  rw [hsel]
  rfl

/-- **C10**  (implicit) When at least one of the four logical fields has no
candidate column in a non-empty well-formed table that contains the code and
name columns, `filter_stocks` applies none of the five conditions: the
result is exactly the code and name columns with every input row in its
original order (and with its original index labels). -/
theorem C10_missing_field_passthrough (df : DataFrame) (hwf : df.WF)
    (hne : df.empty = false)
    (hmiss : resolveCol df.cols price_cols = none ∨ resolveCol df.cols mktcap_cols = none ∨
             resolveCol df.cols lianban_cols = none ∨ resolveCol df.cols times_cols = none)
    (hcode : col_code ∈ df.cols) (hname : col_name ∈ df.cols) :
    filter_stocks df = ⟨[col_code, col_name],
      df.rows.map (fun ir =>
        (ir.1, [getCell df.cols ir.2 col_code, getCell df.cols ir.2 col_name]))⟩ :=
  missing_passthrough df hwf hne hmiss hcode hname

theorem C10_witness :
    filter_stocks exC5 = ⟨[col_code, col_name],
      exC5.rows.map (fun ir =>
        (ir.1, [getCell exC5.cols ir.2 col_code, getCell exC5.cols ir.2 col_name]))⟩ :=
  C10_missing_field_passthrough exC5 (by decide) (by decide)
    (Or.inr (Or.inl (by decide))) (by decide) (by decide)

/-- Counterexample to the claim that a table with no market-cap candidate is
still filtered by the other four conditions: on `exC5` the claim predicts a
single output row (row 1 fails `price < 30` and would be excluded, with the
cap condition universally true), but the code short-circuits at the
missing-column check (lines 101-107) and returns both rows, projected to
the code/name columns only — the price condition is never applied. -/
theorem C5_counterexample :
    filter_stocks exC5 = ⟨["代码", "名称"],
      [(0, [Cell.str "000001", Cell.str "甲"]), (1, [Cell.str "000002", Cell.str "乙"])]⟩ ∧
    cellLt (getCell exC5.cols (exC5.rows.getD 1 (0, [])).2 "最新价") 30 = false ∧
    ¬ (filter_stocks exC5).rows.length = 1 := by
  refine ⟨by decide, by decide, by decide⟩

/-- **C5 (amended)**  When the market-cap field has no candidate column in a
non-empty well-formed table containing the code/name columns,
`filter_stocks` does not filter by the remaining four conditions at all: it
short-circuits and returns exactly the code and name columns with every
input row kept in its original order. -/
theorem C5_amended_missing_cap_passthrough (df : DataFrame) (hwf : df.WF)
    (hne : df.empty = false)
    (hcap : resolveCol df.cols mktcap_cols = none)
    (hcode : col_code ∈ df.cols) (hname : col_name ∈ df.cols) :
    filter_stocks df = ⟨[col_code, col_name],
      df.rows.map (fun ir =>
        (ir.1, [getCell df.cols ir.2 col_code, getCell df.cols ir.2 col_name]))⟩ :=
  missing_passthrough df hwf hne (Or.inr (Or.inl hcap)) hcode hname

theorem C5_witness :
    filter_stocks exC5 = ⟨[col_code, col_name],
      exC5.rows.map (fun ir =>
        (ir.1, [getCell exC5.cols ir.2 col_code, getCell exC5.cols ir.2 col_name]))⟩ :=
  C5_amended_missing_cap_passthrough exC5 (by decide) (by decide) (by decide)
    (by decide) (by decide)

theorem splitOnCharAux_length_pos (sep : Char) :
    ∀ (cs acc : List Char), 1 ≤ (splitOnCharAux sep cs acc).length := by
  intro cs
  induction cs with
  | nil => intro acc; simp [splitOnCharAux]
  | cons c cs ih =>
      intro acc
      by_cases hc : c = sep
      · simp [splitOnCharAux, hc]
      · simpa [splitOnCharAux, hc] using ih (c :: acc)

theorem splitOnCharAux_length_ge_two {sep : Char} :
    ∀ {cs : List Char} (acc : List Char), sep ∈ cs →
      2 ≤ (splitOnCharAux sep cs acc).length := by
  intro cs
  induction cs with
  | nil => intro acc h; cases h
  | cons c cs ih =>
      intro acc h
      by_cases hc : c = sep
      · simp only [splitOnCharAux, if_pos hc, List.length_cons]
        have := splitOnCharAux_length_pos sep cs []
        omega
      · have hmem : sep ∈ cs := by
          rcases List.mem_cons.mp h with h1 | h1
          · exact absurd h1.symm hc
          · exact h1
        simpa [splitOnCharAux, hc] using ih (c :: acc) hmem

theorem splitOnChar_length_ge_two {sep : Char} {cs : List Char} (h : cs.contains sep = true) :
    2 ≤ (splitOnChar sep cs).length :=
  splitOnCharAux_length_ge_two [] (by simpa using h)

/-- **C2**  The composite-count parser: the five documented inputs map to
3, 7, 0, 0, 0; and in general it is a total function that extracts the
integer value of the part after the slash when one is present and parses
numerically otherwise, every parse failure yielding 0. -/
theorem C2_composite_count_extraction :
    extract_half_year_times (Cell.str "5/3") = 3 ∧
    extract_half_year_times (Cell.str "7") = 7 ∧
    extract_half_year_times Cell.null = 0 ∧
    extract_half_year_times (Cell.str "abc") = 0 ∧
    extract_half_year_times (Cell.str "2/x") = 0 ∧
    (∀ (s : String) (n : Int), s.data.contains '/' = true →
      parsePyIntChars ((splitOnChar '/' s.data).getD 1 []) = some n →
      extract_half_year_times (Cell.str s) = n) ∧
    (∀ s : String, s.data.contains '/' = true →
      parsePyIntChars ((splitOnChar '/' s.data).getD 1 []) = none →
      extract_half_year_times (Cell.str s) = 0) ∧
    (∀ (s : String) (q : ℚ), s.data.contains '/' = false →
      parsePyFloatChars s.data = some q →
      extract_half_year_times (Cell.str s) = ratTrunc q) ∧
    (∀ s : String, s.data.contains '/' = false →
      parsePyFloatChars s.data = none →
      extract_half_year_times (Cell.str s) = 0) ∧
    (∀ q : ℚ, extract_half_year_times (Cell.num q) = ratTrunc q) := by
  refine ⟨by decide, by decide, by decide, by decide, by decide, ?_, ?_, ?_, ?_, ?_⟩
  · intro s n hsl hp
    have hlen : (splitOnChar '/' s.data).length ≥ 2 := splitOnChar_length_ge_two hsl
    simp only [extract_half_year_times, hsl, hlen, eq_self_iff_true, if_true, hp]
  · intro s hsl hp
    have hlen : (splitOnChar '/' s.data).length ≥ 2 := splitOnChar_length_ge_two hsl
    simp only [extract_half_year_times, hsl, hlen, eq_self_iff_true, if_true, hp]
  · intro s q hsl hp
    simp only [extract_half_year_times, hsl, Bool.false_eq_true, if_false, hp]
  · intro s hsl hp
    simp only [extract_half_year_times, hsl, Bool.false_eq_true, if_false, hp]
  · intro q
    rfl

theorem C2_witness :
    extract_half_year_times (Cell.str "10/4") = 4 ∧
    extract_half_year_times (Cell.str "8.9") = 8 :=
  ⟨(C2_composite_count_extraction.2.2.2.2.2.1 "10/4" 4 (by decide) (by decide)).trans rfl,
   (C2_composite_count_extraction.2.2.2.2.2.2.2.1 "8.9" (mkRat 89 10) (by decide) (by decide)).trans
     (by decide)⟩

theorem getCol_mapCol {data : DataFrame} (hwf : data.WF) {cm : String}
    (hcm : cm ∈ data.cols) (f : Cell → Cell) :
    (data.mapCol cm f).getCol cm = (data.getCol cm).map f := by
  unfold DataFrame.mapCol DataFrame.getCol getCell
  rw [List.map_map, List.map_map]
  apply List.map_congr_left
  intro ir hir
  have hlen : ir.2.length = data.cols.length := hwf.2 ir hir
  have hidx : colIdx data.cols cm < ir.2.length := by
    rw [hlen]
    exact colIdx_lt_length hcm
  simp only [Function.comp]
  exact getD_set_of_lt hidx _ _

/-- **C3**  Unit normalization: when the skip-NaN maximum of the market-cap
column exceeds 1000 every entry of the column is divided by 1e8; when the
maximum is at most 1000, or is null (no numeric entry), the table is left
unchanged.  Concretely `[50, 80, 120]` stays unchanged and `[5e9, 8e9]`
becomes `[50, 80]`. -/
theorem C3_unit_normalization :
    (∀ (data : DataFrame) (cm : String) (m : ℚ), data.WF → cm ∈ data.cols →
      colMax (data.getCol cm) = some m → m > 1000 →
      (normStep data cm).getCol cm = (data.getCol cm).map divE8Cell) ∧
    (∀ (data : DataFrame) (cm : String) (m : ℚ),
      colMax (data.getCol cm) = some m → m ≤ 1000 → normStep data cm = data) ∧
    (∀ (data : DataFrame) (cm : String),
      colMax (data.getCol cm) = none → normStep data cm = data) ∧
    normStep exCapA "总市值" = exCapA ∧
    (normStep exCapY "总市值").getCol "总市值" = [Cell.num 50, Cell.num 80] := by
  have h1 : ∀ (data : DataFrame) (cm : String) (m : ℚ), data.WF → cm ∈ data.cols →
      colMax (data.getCol cm) = some m → m > 1000 →
      (normStep data cm).getCol cm = (data.getCol cm).map divE8Cell := by
    intro data cm m hwf hcm hmax hgt
    unfold normStep
    rw [hmax]
    dsimp only
    rw [if_pos hgt]
    exact getCol_mapCol hwf hcm divE8Cell
  refine ⟨h1, ?_, ?_, ?_, ?_⟩
  · intro data cm m hmax hle
    unfold normStep
    rw [hmax]
    dsimp only
    rw [if_neg (by exact not_lt.mpr hle)]
  · intro data cm hmax
    unfold normStep
    rw [hmax]
  · decide
  · rw [h1 exCapY "总市值" 8000000000 (by decide) (by decide) (by decide) (by decide)]
    show [divE8Cell (Cell.num 5000000000), divE8Cell (Cell.num 8000000000)]
        = [Cell.num 50, Cell.num 80]
    simp only [divE8Cell]
    norm_num

theorem C3_witness :
    normStep exCapA "总市值" = exCapA ∧
    (normStep exCapY "总市值").getCol "总市值" = [Cell.num 50, Cell.num 80] :=
  ⟨C3_unit_normalization.2.2.2.1, C3_unit_normalization.2.2.2.2⟩

theorem setCol_rows_length {df : DataFrame} {n : String} {vs : List Cell}
    (hlen : vs.length = df.rows.length) :
    (df.setCol n vs).rows.length = df.rows.length := by
  unfold DataFrame.setCol
  by_cases h : n ∈ df.cols <;> simp [h, List.length_zip, hlen]

theorem setCol_WF {df : DataFrame} (hwf : df.WF) {n : String} {vs : List Cell}
    (_hlen : vs.length = df.rows.length) : (df.setCol n vs).WF := by
  unfold DataFrame.setCol
  by_cases h : n ∈ df.cols
  · refine ⟨by simpa [h] using hwf.1, ?_⟩
    intro r hr
    simp only [if_pos h, List.mem_map] at hr ⊢
    obtain ⟨p, hp, rfl⟩ := hr
    have hmem : p.1 ∈ df.rows := (List.of_mem_zip hp).1
    simp [List.length_set, hwf.2 p.1 hmem, h]
  · refine ⟨?_, ?_⟩
    · simp only [if_neg h]
      rw [List.nodup_append]
      exact ⟨hwf.1, List.nodup_singleton n, by simpa using h⟩
    · intro r hr
      simp only [if_neg h, List.mem_map] at hr ⊢
      obtain ⟨p, hp, rfl⟩ := hr
      have hmem : p.1 ∈ df.rows := (List.of_mem_zip hp).1
      simp [hwf.2 p.1 hmem, h]

theorem parsed_len (df : DataFrame) :
    ((df.getCol "涨停统计").map (fun x => Cell.num (extract_half_year_times x))).length
      = df.rows.length := by
  simp [DataFrame.getCol]

theorem timesStep_WF {df : DataFrame} (hwf : df.WF) : (timesStep df).1.WF := by
  rcases timesStep_fst df with heq | heq <;> rw [heq]
  · exact hwf
  · exact setCol_WF hwf (parsed_len df)

theorem timesStep_rows_length (df : DataFrame) :
    (timesStep df).1.rows.length = df.rows.length := by
  rcases timesStep_fst df with heq | heq <;> rw [heq]
  · exact setCol_rows_length (parsed_len df)

theorem timesStep_of_resolve_none {df : DataFrame}
    (h : resolveCol df.cols times_cols = none) : timesStep df = (df, none) := by
  unfold timesStep
  rw [h]

/-- A cell-wise column update whose function fixes every cell of the column
is the identity. -/
theorem mapCol_id {df : DataFrame} {c : String} {f : Cell → Cell}
    (h : ∀ ir ∈ df.rows,
      f (ir.2.getD (colIdx df.cols c) Cell.null) = ir.2.getD (colIdx df.cols c) Cell.null) :
    df.mapCol c f = df := by
  unfold DataFrame.mapCol
  obtain ⟨cols, rows⟩ := df
  congr 1
  have : ∀ ir ∈ rows,
      ((ir : ℕ × List Cell).1,
        ir.2.set (colIdx cols c) (f (ir.2.getD (colIdx cols c) Cell.null))) = ir := by
    intro ir hir
    rw [h ir hir, set_getD_self]
  calc rows.map (fun ir =>
          ((ir : ℕ × List Cell).1,
            ir.2.set (colIdx cols c) (f (ir.2.getD (colIdx cols c) Cell.null))))
      = rows.map id := List.map_congr_left this
    _ = rows := List.map_id rows

/-- Bound transfer through the skip-NaN maximum fold. -/
theorem colMax_fold_bound {b : ℚ} :
    ∀ (cells : List Cell) (acc : Option ℚ),
      (∀ c ∈ cells, ∀ q : ℚ, c = Cell.num q → q < b) →
      (∀ m, acc = some m → m < b) →
      ∀ m, cells.foldl
          (fun acc c =>
            match c with
            | Cell.num q => match acc with
                | some m => some (max m q)
                | none => some q
            | _ => acc) acc = some m → m < b := by
  intro cells
  induction cells with
  | nil =>
      intro acc _ hacc m hm
      exact hacc m hm
  | cons c rest ih =>
      intro acc hcell hacc m hm
      rw [List.foldl_cons] at hm
      refine ih _ (fun x hx q hq => hcell x (List.mem_cons_of_mem _ hx) q hq) ?_ m hm
      intro m1 hm1
      rcases hc : c with q | s | _ <;> rw [hc] at hm1
      · have hq : q < b := hcell c (List.mem_cons_self _ _) q hc
        rcases hacc2 : acc with _ | m0 <;> rw [hacc2] at hm1 <;> dsimp only at hm1
        · have := Option.some.inj hm1
          rw [← this]
          exact hq
        · have := Option.some.inj hm1
          rw [← this]
          exact max_lt (hacc m0 hacc2) hq
      · dsimp only at hm1
        exact hacc m1 hm1
      · dsimp only at hm1
        exact hacc m1 hm1

/-- The fold never loses someness. -/
theorem colMax_fold_some :
    ∀ (cells : List Cell) (m0 : ℚ),
      cells.foldl
          (fun acc c =>
            match c with
            | Cell.num q => match acc with
                | some m => some (max m q)
                | none => some q
            | _ => acc) (some m0) ≠ none := by
  intro cells
  induction cells with
  | nil => intro m0 h; cases h
  | cons c rest ih =>
      intro m0
      rcases c with q | s | _
      · exact ih (max m0 q)
      · exact ih m0
      · exact ih m0

/-- On a nonempty all-numeric column bounded by `b`, the skip-NaN maximum
is attained and is below `b`. -/
theorem colMax_lt {cells : List Cell} {b : ℚ}
    (hall : ∀ c ∈ cells, ∀ q : ℚ, c = Cell.num q → q < b)
    (hnum : ∀ c ∈ cells, ∃ q : ℚ, c = Cell.num q)
    (hne : cells ≠ []) :
    ∃ m, colMax cells = some m ∧ m < b := by
  rcases hmax : colMax cells with _ | m
  · exfalso
    rcases cells with _ | ⟨c, rest⟩
    · exact hne rfl
    · obtain ⟨q, hq⟩ := hnum c (List.mem_cons_self _ _)
      unfold colMax at hmax
      rw [List.foldl_cons, hq] at hmax
      exact colMax_fold_some rest q hmax
  · refine ⟨m, rfl, ?_⟩
    unfold colMax at hmax
    exact colMax_fold_bound cells none hall (fun m hm => by cases hm) m hmax

/-- Projecting a well-formed table to its own column list is the identity. -/
theorem select_self {df : DataFrame} (hwf : df.WF) : df.select df.cols = df := by
  unfold DataFrame.select
  obtain ⟨cols, rows⟩ := df
  have hnd : cols.Nodup := hwf.1
  congr 1
  have : ∀ ir ∈ rows, ((ir : ℕ × List Cell).1, cols.map (getCell cols ir.2)) = ir := by
    intro ir hir
    have hlen : ir.2.length = cols.length := hwf.2 ir hir
    have hcells : cols.map (getCell cols ir.2) = ir.2 := by
      apply List.ext_getElem
      · simp [hlen]
      · intro j h1 h2
        have hj : j < cols.length := by simpa using h1
        rw [List.getElem_map]
        unfold getCell
        rw [colIdx_getElem hnd hj, List.getD_eq_getElem?_getD,
          List.getElem?_eq_getElem h2]
        rfl
    rw [hcells]
  calc rows.map (fun ir => ((ir : ℕ × List Cell).1, cols.map (getCell cols ir.2)))
      = rows.map id := List.map_congr_left this
    _ = rows := List.map_id rows

/-- Resetting an index that is already the 0-based range is the identity. -/
theorem resetIndex_of_range {df : DataFrame}
    (h : df.rows.map Prod.fst = List.range df.rows.length) :
    df.resetIndex = df := by
  unfold DataFrame.resetIndex
  obtain ⟨cols, rows⟩ := df
  congr 1
  apply List.ext_getElem
  · simp [List.enum_length]
  · intro j h1 h2
    have hj : j < rows.enum.length := by simpa using h1
    rw [List.getElem_map, List.getElem_enum]
    have hfst : rows[j].1 = j := by
      have := congrArg (fun l => l.getD j 0) h
      simp only [List.getD_eq_getElem?_getD] at this
      rw [List.getElem?_map, List.getElem?_eq_getElem h2] at this
      have hjr : j < rows.length := h2
      rw [List.getElem?_range (by simpa using hjr)] at this
      simpa using this
    have : rows[j] = (rows[j].1, rows[j].2) := rfl
    rw [this, hfst]

theorem colIdx_append_self {l : List String} {n : String} (h : n ∉ l) :
    colIdx (l ++ [n]) n = l.length := by
  induction l with
  | nil => simp [colIdx]
  | cons a as ih =>
      have han : a ≠ n := fun e => h (e ▸ List.mem_cons_self a as)
      have : n ∉ as := fun hm => h (List.mem_cons_of_mem a hm)
      simp [colIdx, han, ih this]

/-- Reading a column other than the assigned one is unchanged by `setCol`. -/
theorem getCol_setCol {df : DataFrame} (hwf : df.WF) {n c : String} {vs : List Cell}
    (hlen : vs.length = df.rows.length) (hc : c ∈ df.cols) (hne : c ≠ n) :
    (df.setCol n vs).getCol c = df.getCol c := by
  have hfst : (df.rows.zip vs).map Prod.fst = df.rows :=
    List.map_fst_zip _ _ (le_of_eq hlen.symm)
  unfold DataFrame.getCol
  by_cases hn : n ∈ df.cols
  · simp only [DataFrame.setCol, if_pos hn]
    rw [List.map_map]
    calc (df.rows.zip vs).map
          (fun p => getCell df.cols ((p.1.1 : ℕ), p.1.2.set (colIdx df.cols n) p.2).2 c)
        = (df.rows.zip vs).map (fun p => getCell df.cols p.1.2 c) := by
          apply List.map_congr_left
          intro p _
          unfold getCell
          refine getD_set_ne ?_ _ _
          intro e
          exact colIdx_ne hc hne e.symm
      _ = df.rows.map (fun ir => getCell df.cols ir.2 c) := by
          rw [show (fun p : (ℕ × List Cell) × Cell => getCell df.cols p.1.2 c)
              = ((fun ir : ℕ × List Cell => getCell df.cols ir.2 c) ∘ Prod.fst) from rfl]
          rw [← List.map_map, hfst]
  · simp only [DataFrame.setCol, if_neg hn]
    rw [List.map_map]
    calc (df.rows.zip vs).map
          (fun p => getCell (df.cols ++ [n]) ((p.1.1 : ℕ), p.1.2 ++ [p.2]).2 c)
        = (df.rows.zip vs).map (fun p => getCell df.cols p.1.2 c) := by
          apply List.map_congr_left
          intro p hp
          unfold getCell
          rw [colIdx_append_left hc]
          have hmem : p.1 ∈ df.rows := (List.of_mem_zip hp).1
          have hrlen : p.1.2.length = df.cols.length := hwf.2 p.1 hmem
          have hidx : colIdx df.cols c < p.1.2.length := by
            rw [hrlen]
            exact colIdx_lt_length hc
          exact List.getD_append _ _ _ _ hidx
      _ = df.rows.map (fun ir => getCell df.cols ir.2 c) := by
          rw [show (fun p : (ℕ × List Cell) × Cell => getCell df.cols p.1.2 c)
              = ((fun ir : ℕ × List Cell => getCell df.cols ir.2 c) ∘ Prod.fst) from rfl]
          rw [← List.map_map, hfst]

/-- `setCol` on a present label, unfolded. -/
theorem setCol_eq_of_mem (df : DataFrame) {n : String} {vs : List Cell} (hn : n ∈ df.cols) :
    df.setCol n vs
      = ⟨df.cols, (df.rows.zip vs).map (fun p => (p.1.1, p.1.2.set (colIdx df.cols n) p.2))⟩ := by
  unfold DataFrame.setCol
  rw [if_pos hn]

/-- `setCol` on an absent label, unfolded. -/
theorem setCol_eq_of_not_mem {df : DataFrame} {n : String} {vs : List Cell} (hn : n ∉ df.cols) :
    df.setCol n vs
      = ⟨df.cols ++ [n], (df.rows.zip vs).map (fun p => (p.1.1, p.1.2 ++ [p.2]))⟩ := by
  unfold DataFrame.setCol
  rw [if_neg hn]

/-- Writing the same values to the same column twice equals writing once. -/
theorem setCol_setCol_same {df : DataFrame} (hwf : df.WF) {n : String} {vs : List Cell}
    (hlen : vs.length = df.rows.length) :
    (df.setCol n vs).setCol n vs = df.setCol n vs := by
  by_cases hn : n ∈ df.cols
  · rw [setCol_eq_of_mem df hn]
    rw [setCol_eq_of_mem ⟨df.cols,
      (df.rows.zip vs).map (fun p => (p.1.1, p.1.2.set (colIdx df.cols n) p.2))⟩ hn]
    congr 1
    apply List.ext_getElem
    · simp [List.length_zip, hlen]
    · intro j h1 h2
      have hjr : j < df.rows.length := by
        simp only [List.length_zip, List.length_map, lt_min_iff] at h2
        exact h2.1
      have hjv : j < vs.length := by rw [hlen]; exact hjr
      have hjz : j < (df.rows.zip vs).length := by
        simp only [List.length_zip, lt_min_iff]
        exact ⟨hjr, hjv⟩
      have hjz2 : j < (((df.rows.zip vs).map
          (fun p => ((p.1.1 : ℕ), p.1.2.set (colIdx df.cols n) p.2))).zip vs).length := by
        simp only [List.length_zip, List.length_map, lt_min_iff]
        exact ⟨⟨hjr, hjv⟩, hjv⟩
      rw [List.getElem_map, List.getElem_zip, List.getElem_map]
      rw [List.getElem_zip]
      dsimp only
      rw [List.set_set]
  · rw [setCol_eq_of_not_mem hn]
    have hn2 : n ∈ (⟨df.cols ++ [n],
        (df.rows.zip vs).map (fun p => ((p.1.1 : ℕ), p.1.2 ++ [p.2]))⟩ : DataFrame).cols := by
      simp
    rw [setCol_eq_of_mem _ hn2]
    congr 1
    apply List.ext_getElem
    · simp [List.length_zip, hlen]
    · intro j h1 h2
      have hjr : j < df.rows.length := by
        simp only [List.length_zip, List.length_map, lt_min_iff] at h2
        exact h2.1
      have hjv : j < vs.length := by rw [hlen]; exact hjr
      have hjz : j < (df.rows.zip vs).length := by
        simp only [List.length_zip, lt_min_iff]
        exact ⟨hjr, hjv⟩
      rw [List.getElem_map, List.getElem_zip, List.getElem_map]
      rw [List.getElem_zip]
      dsimp only
      have hidx : colIdx (df.cols ++ [n]) n = df.cols.length := colIdx_append_self hn
      have hrlen : df.rows[j].2.length = df.cols.length :=
        hwf.2 _ (List.getElem_mem hjr)
      have hset : (df.rows[j].2 ++ [vs[j]]).set (colIdx (df.cols ++ [n]) n) vs[j]
          = df.rows[j].2 ++ [vs[j]] := by
        rw [hidx, List.set_append_right _ _ (le_of_eq hrlen)]
        simp [hrlen]
      rw [hset]

/-- Resolution over candidates not containing the assigned label is
unchanged by `setCol`. -/
theorem resolveCol_setCol {df : DataFrame} {n : String} {vs : List Cell}
    {cands : List String} (h : n ∉ cands) :
    resolveCol (df.setCol n vs).cols cands = resolveCol df.cols cands := by
  rcases setCol_cols df n vs with hc | hc <;> rw [hc]
  unfold resolveCol
  induction cands with
  | nil => rfl
  | cons d rest ih =>
      have hdn : d ≠ n := fun e => h (e ▸ List.mem_cons_self d rest)
      have hrest : n ∉ rest := fun hm => h (List.mem_cons_of_mem d hm)
      rw [List.find?_cons, List.find?_cons]
      have : (decide (d ∈ df.cols ++ [n])) = (decide (d ∈ df.cols)) := by
        simp [List.mem_append, hdn]
      rw [this]
      rcases decide (d ∈ df.cols) with _ | _
      · exact ih hrest
      · rfl

/-- Membership of labels other than the assigned one is unchanged by
`setCol`. -/
theorem mem_setCol_cols_iff {df : DataFrame} {n c : String} {vs : List Cell}
    (hne : c ≠ n) : (c ∈ (df.setCol n vs).cols) ↔ c ∈ df.cols := by
  rcases setCol_cols df n vs with hc | hc <;> rw [hc]
  simp [List.mem_append, hne]

/-- A table holding exactly the code/name columns is a fixed point of
`filter_stocks` (it takes the missing-column branch and projects to
itself). -/
theorem filter_stocks_codename_fixed {t : DataFrame}
    (hcols : t.cols = [col_code, col_name])
    (hrows2 : ∀ r ∈ t.rows, r.2.length = 2) :
    filter_stocks t = t := by
  by_cases hemp : t.empty = true
  · exact filter_stocks_empty hemp
  have hne : t.empty = false := by revert hemp; cases t.empty <;> simp
  have hcp : resolveCol t.cols price_cols = none := by rw [hcols]; decide
  have htc : resolveCol t.cols times_cols = none := by rw [hcols]; decide
  have hts : timesStep t = (t, none) := timesStep_of_resolve_none htc
  rw [filter_stocks_fallback hne (Or.inl hcp), hts]
  show fallback t = t
  unfold fallback
  rw [if_pos ⟨by rw [hcols]; decide, by rw [hcols]; decide⟩]
  have hwf : t.WF := by
    refine ⟨by rw [hcols]; decide, ?_⟩
    intro r hr
    rw [hcols]
    exact hrows2 r hr
  calc t.select [col_code, col_name] = t.select t.cols := by rw [hcols]
    _ = t := select_self hwf

/-- A nonempty table with the display columns, all rows passing the five
conditions, sorted, with a 0-based range index, is a fixed point of
`filter_stocks`. -/
theorem filter_stocks_display_fixed {t : DataFrame}
    (hcols : t.cols = displayCols)
    (hrows6 : ∀ r ∈ t.rows, r.2.length = 6)
    (hmeet : ∀ c ∈ t.rows.map Prod.snd, rowMeets c)
    (hsorted : (t.rows.map Prod.snd).Pairwise
      (fun r s => keyLe (keyOf displayCols r) (keyOf displayCols s) = true))
    (hidx : t.rows.map Prod.fst = List.range t.rows.length) :
    filter_stocks t = t := by
  by_cases hemp : t.empty = true
  · exact filter_stocks_empty hemp
  have hne : t.empty = false := by revert hemp; cases t.empty <;> simp
  have hnerows : t.rows ≠ [] := by
    intro h
    apply hemp
    unfold DataFrame.empty
    rw [h]
    rfl
  have hwf : t.WF := by
    refine ⟨by rw [hcols]; decide, ?_⟩
    intro r hr
    rw [hcols]
    exact (hrows6 r hr).trans (by decide)
  have hcp : resolveCol t.cols price_cols = some "最新价" := by rw [hcols]; decide
  have hcm : resolveCol t.cols mktcap_cols = some "总市值(亿)" := by rw [hcols]; decide
  have hcl : resolveCol t.cols lianban_cols = some "连板数" := by rw [hcols]; decide
  have hctr : resolveCol t.cols times_cols = some "近半年涨停次数" := by rw [hcols]; decide
  have hts : timesStep t = (t, some "近半年涨停次数") := by
    unfold timesStep
    rw [hctr]
    dsimp only
    rw [if_neg (by decide : ¬ ("近半年涨停次数" = "涨停统计"))]
  have hct : (timesStep t).2 = some "近半年涨停次数" := by rw [hts]
  rw [filter_stocks_full hne hcp hcm hcl hct, hts]
  show filter_full t "最新价" "总市值(亿)" "连板数" "近半年涨停次数" = t
  have hmap : ∀ c : String,
      (∀ r ∈ t.rows.map Prod.snd, ∃ q, getCell t.cols r c = Cell.num q) →
      t.mapCol c toNumericCell = t := by
    intro c hc
    apply mapCol_id
    intro ir hir
    obtain ⟨q, hq⟩ := hc ir.2 (List.mem_map_of_mem _ hir)
    unfold getCell at hq
    rw [hq]
    rfl
  have hnumP : ∀ r ∈ t.rows.map Prod.snd, ∃ q, getCell t.cols r "最新价" = Cell.num q := by
    intro r hr
    obtain ⟨m1, _, _, _, _⟩ := hmeet r hr
    obtain ⟨q, hq, _⟩ := cellLt_iff.mp m1
    exact ⟨q, by rw [hcols]; exact hq⟩
  have hnumM : ∀ r ∈ t.rows.map Prod.snd, ∃ q, getCell t.cols r "总市值(亿)" = Cell.num q := by
    intro r hr
    obtain ⟨_, m2, _, _, _⟩ := hmeet r hr
    obtain ⟨q, hq, _⟩ := cellLt_iff.mp m2
    exact ⟨q, by rw [hcols]; exact hq⟩
  have hnumL : ∀ r ∈ t.rows.map Prod.snd, ∃ q, getCell t.cols r "连板数" = Cell.num q := by
    intro r hr
    obtain ⟨_, _, _, m4, _⟩ := hmeet r hr
    obtain ⟨q, hq, _⟩ := cellLt_iff.mp m4
    exact ⟨q, by rw [hcols]; exact hq⟩
  have hnumT : ∀ r ∈ t.rows.map Prod.snd, ∃ q, getCell t.cols r "近半年涨停次数" = Cell.num q := by
    intro r hr
    obtain ⟨_, _, m3, _, _⟩ := hmeet r hr
    obtain ⟨q, hq, _⟩ := cellGe_iff.mp m3
    exact ⟨q, by rw [hcols]; exact hq⟩
  have hnumStep : numStep t "最新价" "总市值(亿)" "连板数" "近半年涨停次数" = t := by
    unfold numStep
    rw [hmap _ hnumP, hmap _ hnumM, hmap _ hnumL, hmap _ hnumT]
  have hcapnum : ∀ c ∈ t.getCol "总市值(亿)", ∃ q, c = Cell.num q ∧ q < 200 := by
    intro c hc
    unfold DataFrame.getCol at hc
    obtain ⟨ir, hir, rfl⟩ := List.mem_map.mp hc
    obtain ⟨_, m2, _, _, _⟩ := hmeet ir.2 (List.mem_map_of_mem _ hir)
    obtain ⟨q, hq, hlt⟩ := cellLt_iff.mp m2
    exact ⟨q, by rw [hcols]; exact hq, hlt⟩
  have hnormStep : normStep t "总市值(亿)" = t := by
    unfold normStep
    obtain ⟨m, hm, hlt⟩ :
        ∃ m, colMax (t.getCol "总市值(亿)") = some m ∧ m < 200 := colMax_lt
      (fun c hc q hq => by
        obtain ⟨q2, he, hl⟩ := hcapnum c hc
        rw [hq] at he
        cases he
        exact hl)
      (fun c hc => (hcapnum c hc).imp (fun q h => h.1))
      (fun h => hnerows (by
        unfold DataFrame.getCol at h
        exact List.map_eq_nil_iff.mp h))
    rw [hm]
    dsimp only
    rw [if_neg (not_lt.mpr (le_of_lt (hlt.trans (by norm_num))))]
  have hprep : prepAll t "最新价" "总市值(亿)" "连板数" "近半年涨停次数" = t := by
    unfold prepAll
    rw [hnumStep, hnormStep]
  have hcond : ∀ ir ∈ t.rows,
      condAll t.cols "最新价" "总市值(亿)" "连板数" "近半年涨停次数" ir.2 = true := by
    intro ir hir
    obtain ⟨m1, m2, m3, m4, m5⟩ := hmeet ir.2 (List.mem_map_of_mem _ hir)
    unfold condAll
    rw [hcols, m1, m2, m3, m4, m5]
    rfl
  have hfilt : t.filterRows
      (condAll t.cols "最新价" "总市值(亿)" "连板数" "近半年涨停次数") = t := by
    unfold DataFrame.filterRows
    rw [List.filter_eq_self.mpr (fun ir hir => hcond ir hir)]
  have hkeep : keepCols "最新价" "总市值(亿)" "连板数" "近半年涨停次数" = displayCols := by
    decide
  have hsel : t.select (keepCols "最新价" "总市值(亿)" "连板数" "近半年涨停次数") = t := by
    rw [hkeep, ← hcols]
    exact select_self hwf
  have hren : t.renameCols (renameMap "最新价" "总市值(亿)" "连板数" "近半年涨停次数") = t := by
    unfold DataFrame.renameCols
    have hmapcols : t.cols.map
        (applyRename (renameMap "最新价" "总市值(亿)" "连板数" "近半年涨停次数")) = t.cols := by
      rw [hcols]
      decide
    rw [hmapcols]
  have hselTable : selectedTable t "最新价" "总市值(亿)" "连板数" "近半年涨停次数" = t := by
    unfold selectedTable
    rw [hprep, hfilt, hsel, hren]
  have hsortT : t.sortStep = t := by
    unfold DataFrame.sortStep
    have hs : List.Sorted (rowLeProp t.cols) t.rows := by
      rw [hcols]
      have hp := List.pairwise_map.mp hsorted
      exact hp
    rw [hs.insertionSort_eq]
  have hreset : t.resetIndex = t := resetIndex_of_range hidx
  unfold filter_full
  rw [hselTable, hsortT, hreset]

theorem empty_false_of {df : DataFrame} (h1 : df.rows ≠ []) (h2 : df.cols ≠ []) :
    df.empty = false := by
  unfold DataFrame.empty
  rw [Bool.or_eq_false_iff]
  exact ⟨Bool.eq_false_iff.mpr (fun h => h1 (List.isEmpty_iff.mp h)),
    Bool.eq_false_iff.mpr (fun h => h2 (List.isEmpty_iff.mp h))⟩

theorem empty_false_parts {df : DataFrame} (h : df.empty = false) :
    df.rows ≠ [] ∧ df.cols ≠ [] := by
  unfold DataFrame.empty at h
  rw [Bool.or_eq_false_iff] at h
  constructor
  · intro e
    rw [e] at h
    simp at h
  · intro e
    rw [e] at h
    simp at h

theorem resolveCol_head {cols : List String} {c : String} (rest : List String)
    (h : c ∈ cols) : resolveCol cols (c :: rest) = some c := by
  unfold resolveCol
  rw [List.find?_cons]
  simp [h]

/-- Every row of the full-branch output has exactly six cells. -/
theorem filter_full_rows_len (data : DataFrame) (cp cm cl ct : String) :
    ∀ r ∈ (filter_full data cp cm cl ct).rows, r.2.length = 6 := by
  intro r hr
  have hsnd : r.2 ∈ (filter_full data cp cm cl ct).rows.map Prod.snd :=
    List.mem_map_of_mem _ hr
  have hmem : r.2 ∈ (selectedTable data cp cm cl ct).rows.map Prod.snd :=
    (filter_full_perm data cp cm cl ct).mem_iff.mp hsnd
  rw [selectedTable_rows, List.map_map] at hmem
  obtain ⟨ir, _, hc⟩ := List.mem_map.mp hmem
  rw [← hc]
  simp [keepCols]

/-- **C6**  `filter_stocks` is idempotent: applying it to its own output
(with the renamed display columns) returns that output unchanged, for every
well-formed input table. -/
theorem C6_idempotent (df : DataFrame) (hwf : df.WF) :
    filter_stocks (filter_stocks df) = filter_stocks df := by
  by_cases hemp : df.empty = true
  · rw [filter_stocks_empty hemp, filter_stocks_empty hemp]
  have hne : df.empty = false := by revert hemp; cases df.empty <;> simp
  have hnerows : df.rows ≠ [] := (empty_false_parts hne).1
  by_cases hfull : ∃ cp cm cl ct,
      resolveCol df.cols price_cols = some cp ∧ resolveCol df.cols mktcap_cols = some cm ∧
      resolveCol df.cols lianban_cols = some cl ∧ (timesStep df).2 = some ct
  · obtain ⟨cp, cm, cl, ct, hcp, hcm, hcl, hct⟩ := hfull
    rw [filter_stocks_full hne hcp hcm hcl hct]
    by_cases houtne : (filter_full (timesStep df).1 cp cm cl ct).rows = []
    · apply filter_stocks_empty
      unfold DataFrame.empty
      rw [houtne]
      rfl
    · have hcolsSel : (selectedTable (timesStep df).1 cp cm cl ct).cols = displayCols :=
        selectedTable_cols (resolved_ne_of hcp hcm hcl hct)
      apply filter_stocks_display_fixed
      · exact hcolsSel
      · exact filter_full_rows_len _ cp cm cl ct
      · exact filter_full_rows_meet _ cp cm cl ct
      · exact filter_full_sorted _ cp cm cl ct hcolsSel
      · exact filter_full_idx _ cp cm cl ct
  · have hmiss : resolveCol df.cols price_cols = none ∨
        resolveCol df.cols mktcap_cols = none ∨
        resolveCol df.cols lianban_cols = none ∨ (timesStep df).2 = none := by
      by_contra hcon
      push_neg at hcon
      obtain ⟨h1, h2, h3, h4⟩ := hcon
      obtain ⟨cp, hcp⟩ := Option.ne_none_iff_exists'.mp h1
      obtain ⟨cm, hcm⟩ := Option.ne_none_iff_exists'.mp h2
      obtain ⟨cl, hcl⟩ := Option.ne_none_iff_exists'.mp h3
      obtain ⟨ct, hct⟩ := Option.ne_none_iff_exists'.mp h4
      exact hfull ⟨cp, cm, cl, ct, hcp, hcm, hcl, hct⟩
    rw [filter_stocks_fallback hne hmiss]
    unfold fallback
    by_cases hcn : col_code ∈ (timesStep df).1.cols ∧ col_name ∈ (timesStep df).1.cols
    · rw [if_pos hcn]
      apply filter_stocks_codename_fixed
      · rfl
      · intro r hr
        obtain ⟨ir, _, hir⟩ := List.mem_map.mp hr
        rw [← hir]
        rfl
    · rw [if_neg hcn]
      rcases hr : resolveCol df.cols times_cols with _ | c
      · -- no times candidate: the parse step is the identity
        have heqd : (timesStep df).1 = df := by rw [timesStep_of_resolve_none hr]
        rw [heqd]
        rw [filter_stocks_fallback hne hmiss, heqd]
        unfold fallback
        rw [if_neg (fun h => hcn (heqd.symm ▸ h))]
      · by_cases hc : c = "涨停统计"
        · -- the parse branch: the second call rewrites the parsed column
          -- with the same values
          subst hc
          have hmemz : "涨停统计" ∈ df.cols := (resolveCol_mem hr).2
          have heqd : (timesStep df).1 = df.setCol parsedTimesCol
              ((df.getCol "涨停统计").map (fun x => Cell.num (extract_half_year_times x))) := by
            unfold timesStep
            rw [hr]
            dsimp only
            rw [if_pos rfl]
          have hsnd : (timesStep df).2 = some parsedTimesCol := by
            unfold timesStep
            rw [hr]
            dsimp only
            rw [if_pos rfl]
          set vs := (df.getCol "涨停统计").map (fun x => Cell.num (extract_half_year_times x))
            with hvs
          set data := df.setCol parsedTimesCol vs with hdata
          rw [heqd]
          show filter_stocks data = data
          have hlen : vs.length = df.rows.length := parsed_len df
          have hdatarows : data.rows.length = df.rows.length := setCol_rows_length hlen
          have hdfcols : df.cols ≠ [] := (empty_false_parts hne).2
          have hdatane : data.empty = false := by
            apply empty_false_of
            · intro h
              apply hnerows
              rw [h] at hdatarows
              exact List.length_eq_zero.mp hdatarows.symm
            · rcases setCol_cols df parsedTimesCol vs with h2 | h2 <;> rw [hdata, h2]
              · exact hdfcols
              · simp
          have hmiss3 : resolveCol df.cols price_cols = none ∨
              resolveCol df.cols mktcap_cols = none ∨
              resolveCol df.cols lianban_cols = none := by
            rcases hmiss with h | h | h | h
            · exact Or.inl h
            · exact Or.inr (Or.inl h)
            · exact Or.inr (Or.inr h)
            · rw [hsnd] at h
              cases h
          have hmiss_data : resolveCol data.cols price_cols = none ∨
              resolveCol data.cols mktcap_cols = none ∨
              resolveCol data.cols lianban_cols = none ∨ (timesStep data).2 = none := by
            rcases hmiss3 with h | h | h
            · exact Or.inl ((resolveCol_setCol (by decide)).trans h)
            · exact Or.inr (Or.inl ((resolveCol_setCol (by decide)).trans h))
            · exact Or.inr (Or.inr (Or.inl ((resolveCol_setCol (by decide)).trans h)))
          rw [filter_stocks_fallback hdatane hmiss_data]
          have hmemz2 : "涨停统计" ∈ data.cols :=
            (mem_setCol_cols_iff (by decide)).mpr hmemz
          have hgetz : data.getCol "涨停统计" = df.getCol "涨停统计" :=
            getCol_setCol hwf hlen hmemz (by decide)
          have hts_data : (timesStep data).1 = data := by
            unfold timesStep
            rw [show resolveCol data.cols times_cols = some "涨停统计" from
              resolveCol_head _ hmemz2]
            dsimp only
            rw [if_pos rfl]
            show data.setCol parsedTimesCol
              ((data.getCol "涨停统计").map (fun x => Cell.num (extract_half_year_times x))) = data
            rw [hgetz, ← hvs, hdata]
            exact setCol_setCol_same hwf hlen
          rw [hts_data]
          unfold fallback
          rw [if_neg (fun h => hcn (heqd.symm ▸ h))]
        · -- a plain numeric times column: the parse step is the identity
          have heqd : (timesStep df).1 = df := by
            unfold timesStep
            rw [hr]
            dsimp only
            rw [if_neg hc]
          rw [heqd]
          rw [filter_stocks_fallback hne hmiss, heqd]
          unfold fallback
          rw [if_neg (fun h => hcn (heqd.symm ▸ h))]

theorem C6_witness : filter_stocks (filter_stocks exTable) = filter_stocks exTable :=
  C6_idempotent exTable (by decide)

theorem getD_append_lt {l : List DataFrame} (v : DataFrame) {a : ℕ} (ha : a < l.length) :
    (l ++ [v]).getD a emptyFrame = l.getD a emptyFrame :=
  List.getD_append _ _ _ _ ha

theorem getD_set_ne2 {l : List DataFrame} {i a : ℕ} (hne : i ≠ a) (v : DataFrame) :
    (l.set i v).getD a emptyFrame = l.getD a emptyFrame :=
  getD_set_ne (fun e => hne e) _ _

/-- **C9**  `filter_stocks` never mutates its argument: after the call, the
object at the argument address holds exactly the table it held before — all
in-place operations target the copies allocated inside the routine. -/
theorem C9_argument_not_mutated (h : List DataFrame) (a : ℕ) (ha : a < h.length) :
    (filter_stocks_heap h a).1.getD a emptyFrame = h.getD a emptyFrame := by
  unfold filter_stocks_heap
  by_cases hemp : (h.getD a emptyFrame).empty = true
  · simp only [hemp, eq_self_iff_true, if_true]
  · have hne : (h.getD a emptyFrame).empty = false := by
      revert hemp
      cases (h.getD a emptyFrame).empty <;> simp
    simp only [hne, Bool.false_eq_true, if_false]
    split
    · -- the full branch: three allocations, six in-place writes
      simp only [List.length_append, List.length_set, List.length_singleton]
      rw [getD_set_ne2 (by omega), getD_set_ne2 (by omega), getD_set_ne2 (by omega),
        getD_append_lt _ (by simp [List.length_set]; omega),
        getD_append_lt _ (by simp [List.length_set]; omega),
        getD_set_ne2 (by omega), getD_set_ne2 (by omega), getD_set_ne2 (by omega),
        getD_append_lt _ (by omega)]
    · -- the fallback branch: at most one allocation and one in-place write
      split
      · show (_ ++ [_]).getD a emptyFrame = _
        rw [getD_append_lt _ (by simp [List.length_set]; omega),
          getD_set_ne2 (by omega), getD_append_lt _ (by omega)]
      · show ((h ++ [h.getD a emptyFrame]).set h.length _).getD a emptyFrame = _
        rw [getD_set_ne2 (by omega), getD_append_lt _ (by omega)]

theorem C9_witness :
    (filter_stocks_heap [exTable] 0).1.getD 0 emptyFrame = [exTable].getD 0 emptyFrame :=
  C9_argument_not_mutated [exTable] 0 (by decide)

theorem getD_concat_self (l : List DataFrame) (v : DataFrame) :
    (l ++ [v]).getD l.length emptyFrame = v := by
  simp [List.getD_eq_getElem?_getD, List.getElem?_concat_length]

theorem getD_set_self_lt {l : List DataFrame} {i : ℕ} (hi : i < l.length) (v : DataFrame) :
    (l.set i v).getD i emptyFrame = v :=
  getD_set_of_lt hi _ _

/-- The heap-level embedding computes the same table as the pure
`filter_stocks`: the returned address holds `filter_stocks` of the
argument. -/
theorem filter_stocks_heap_result (h : List DataFrame) (a : ℕ) :
    (filter_stocks_heap h a).1.getD (filter_stocks_heap h a).2 emptyFrame
      = filter_stocks (h.getD a emptyFrame) := by
  unfold filter_stocks_heap
  by_cases hemp : (h.getD a emptyFrame).empty = true
  · simp only [hemp, eq_self_iff_true, if_true]
    rw [filter_stocks_empty hemp]
  · have hne : (h.getD a emptyFrame).empty = false := by
      revert hemp
      cases (h.getD a emptyFrame).empty <;> simp
    simp only [hne, Bool.false_eq_true, if_false]
    have hd1 : (h ++ [h.getD a emptyFrame]).getD h.length emptyFrame = h.getD a emptyFrame :=
      getD_concat_self h _
    split
    · rename_i cp cm cl ct hcp hcm hcl hct
      rw [filter_stocks_full hne hcp hcm hcl hct]
      have hlen1 : h.length < (h ++ [h.getD a emptyFrame]).length := by simp
      rw [hd1]
      rw [getD_set_self_lt hlen1, getD_set_self_lt (by simpa using hlen1),
        getD_set_self_lt (by simpa using hlen1)]
      rw [getD_concat_self, getD_concat_self]
      rw [getD_set_self_lt (by simp), getD_set_self_lt (by simp), getD_set_self_lt (by simp)]
      rfl
    · rename_i himp
      have hmiss : resolveCol (h.getD a emptyFrame).cols price_cols = none ∨
          resolveCol (h.getD a emptyFrame).cols mktcap_cols = none ∨
          resolveCol (h.getD a emptyFrame).cols lianban_cols = none ∨
          (timesStep (h.getD a emptyFrame)).2 = none := by
        rcases h1 : resolveCol (h.getD a emptyFrame).cols price_cols with _ | cp
        · exact Or.inl rfl
        rcases h2 : resolveCol (h.getD a emptyFrame).cols mktcap_cols with _ | cm
        · exact Or.inr (Or.inl rfl)
        rcases h3 : resolveCol (h.getD a emptyFrame).cols lianban_cols with _ | cl
        · exact Or.inr (Or.inr (Or.inl rfl))
        rcases h4 : (timesStep (h.getD a emptyFrame)).2 with _ | ct
        · exact Or.inr (Or.inr (Or.inr rfl))
        exact absurd (himp cp cm cl ct h1 h2 h3 h4) (fun f => f)
      rw [filter_stocks_fallback hne hmiss]
      have hlen1 : h.length < (h ++ [h.getD a emptyFrame]).length := by simp
      have hd2 : ((h ++ [h.getD a emptyFrame]).set h.length
            (timesStep ((h ++ [h.getD a emptyFrame]).getD h.length emptyFrame)).1).getD
          h.length emptyFrame = (timesStep (h.getD a emptyFrame)).1 := by
        rw [getD_set_self_lt hlen1, hd1]
      split
      · rename_i hcn
        rw [hd2] at hcn
        show (_ ++ [_]).getD (List.length _) emptyFrame = _
        rw [getD_concat_self, hd2]
        unfold fallback
        rw [if_pos hcn]
      · rename_i hcn
        rw [hd2] at hcn
        show ((h ++ [h.getD a emptyFrame]).set h.length _).getD h.length emptyFrame = _
        rw [hd2]
        unfold fallback
        rw [if_neg hcn]
